import Mathlib

/-!
# A shallow embedding of `inc/tui.h`

The header implements a double-buffered character grid (`tui_frame_t`), a
presentation context owning a front and a back frame (`tui_ctx_t`), and the
diff engine `tui_present` that writes the changed runs of the back frame to an
output sink.

Conventions of the embedding.

* A `char` is represented by its value as an `unsigned char`, a natural number
  below 256.  The only place where the C code looks at the numeric value of a
  `char` is `tui_sanitize_ascii`, which casts to `unsigned char` first.
* `size_t` is the 64-bit unsigned type; `size_wrap` is reduction modulo
  `SIZE_MAX + 1` and is applied wherever the C code multiplies or adds
  `size_t` values to form a size or an index.
* A cell buffer is a `List Nat`.  An access outside the buffer is undefined
  behaviour in C; the embedding returns `none` for it.  A `while` loop is a
  function by recursion on a fuel argument that returns `none` when the fuel is
  exhausted; the callers pass a fuel computed from the loop bounds.
* Pointers to frames and contexts are taken to be valid (non-null): the
  `if (!f) return ...` guards of the C functions have no counterpart.
* The output sink `FILE *out` is the list of bytes written to it so far.
-/

namespace Tui

/-! ## Machine integers and memory -/

/-- Largest value of the type `size_t` (64-bit target). -/
def SIZE_MAX : Nat := 2 ^ 64 - 1

/-- Arithmetic on `size_t` wraps modulo `SIZE_MAX + 1`. -/
def size_wrap (n : Nat) : Nat := n % (SIZE_MAX + 1)

/-- The expression `r * cols + c` evaluated in `size_t`. -/
def cell_index (r cols c : Nat) : Nat := size_wrap (r * cols + c)

/-- Reading `buf[i]`; `none` when `i` is outside the buffer. -/
def load (buf : List Nat) (i : Nat) : Option Nat := buf[i]?

/-- Writing `buf[i] = v`; `none` when `i` is outside the buffer. -/
def store (buf : List Nat) (i v : Nat) : Option (List Nat) :=
  if i < buf.length then some (buf.set i v) else none

/-- The call `memset(buf, v, n)`: the first `n` bytes of the buffer become `v`. -/
def memset (buf : List Nat) (v n : Nat) : Option (List Nat) :=
  if n ≤ buf.length then some (List.replicate n v ++ buf.drop n) else none

/-- The call `memcpy(dst + d, src + s, n)`, byte by byte. -/
def memcpy (dst : List Nat) (d : Nat) (src : List Nat) (s : Nat) : Nat → Option (List Nat)
  | 0 => some dst
  | n + 1 =>
    match load src s with
    | none => none
    | some v =>
      match store dst d v with
      | none => none
      | some dst1 => memcpy dst1 (d + 1) src (s + 1) n

/-! ## Frames (`tui.h` lines 39-104) -/

/-- The struct `tui_frame_t`: dimensions and the row-major cell buffer. -/
structure tui_frame_t where
  rows : Nat
  cols : Nat
  cells : List Nat
deriving DecidableEq, Repr

/-- A frame as the library builds it: the buffer holds `rows * cols` cells and
that product is a `size_t` value. -/
def tui_frame_t.wf (f : tui_frame_t) : Prop :=
  f.cells.length = f.rows * f.cols ∧ f.rows * f.cols ≤ SIZE_MAX

instance (f : tui_frame_t) : Decidable f.wf := by
  unfold tui_frame_t.wf; exact inferInstance

/-- The function `tui_sanitize_ascii` (lines 45-48); `63` is the character `?`. -/
def tui_sanitize_ascii (ch : Nat) : Nat :=
  if ch < 32 ∨ ch > 126 then 63 else ch

/-- One call of the C allocator made by `tui_frame_new`. -/
inductive alloc_call where
  | malloc_frame : alloc_call
  | calloc_cells (nmemb : Nat) : alloc_call
deriving DecidableEq, Repr

/-- The function `tui_frame_new` (lines 50-60).  The two flags say whether the
`malloc` of the struct and the `calloc` of the cells succeed.  The result is the
returned pointer (`none` for `NULL`) together with the allocator calls that were
made, in order. -/
def tui_frame_new (malloc_ok calloc_ok : Bool) (rows cols : Nat) :
    Option tui_frame_t × List alloc_call :=
  if rows = 0 ∨ cols = 0 ∨ cols > SIZE_MAX / rows then (none, [])
  else
    let total := size_wrap (rows * cols)
    if ¬ malloc_ok then (none, [alloc_call.malloc_frame])
    else if ¬ calloc_ok then
      (none, [alloc_call.malloc_frame, alloc_call.calloc_cells total])
    else
      (some ⟨rows, cols, List.replicate total 0⟩,
       [alloc_call.malloc_frame, alloc_call.calloc_cells total])

/-- The function `tui_frame_set_char` (lines 70-74): the returned `int` and the
frame after the call. -/
def tui_frame_set_char (f : tui_frame_t) (r c ch : Nat) : Option (Int × tui_frame_t) :=
  if r ≥ f.rows ∨ c ≥ f.cols then some (-1, f)
  else
    match store f.cells (cell_index r f.cols c) (tui_sanitize_ascii ch) with
    | none => none
    | some cs => some (0, { f with cells := cs })

/-- The function `tui_frame_get_char` (lines 77-80). -/
def tui_frame_get_char (f : tui_frame_t) (r c : Nat) : Option Nat :=
  if r ≥ f.rows ∨ c ≥ f.cols then some 0
  else load f.cells (cell_index r f.cols c)

/-- The function `tui_frame_clear` (lines 83-86). -/
def tui_frame_clear (f : tui_frame_t) (ch : Nat) : Option tui_frame_t :=
  match memset f.cells ch (size_wrap (f.rows * f.cols)) with
  | none => none
  | some cs => some { f with cells := cs }

/-- The copy loop of `tui_frame_resize` (lines 96-98): one `memcpy` of `minc`
bytes per row `r < minr`. -/
def resize_copy (newcells : List Nat) (cols : Nat) (old : tui_frame_t) (minr minc : Nat) :
    Option (List Nat) :=
  (List.range minr).foldlM
    (fun nc r => memcpy nc (size_wrap (r * cols)) old.cells (size_wrap (r * old.cols)) minc)
    newcells

/-- The function `tui_frame_resize` (lines 89-104).  The flag says whether
`calloc` succeeds; the result is the returned `int` and the frame after the
call. -/
def tui_frame_resize (calloc_ok : Bool) (f : tui_frame_t) (rows cols : Nat) :
    Option (Int × tui_frame_t) :=
  if rows = 0 ∨ cols = 0 ∨ cols > SIZE_MAX / rows then some (-1, f)
  else
    let total := size_wrap (rows * cols)
    if ¬ calloc_ok then some (-1, f)
    else
      let newcells := List.replicate total 0
      let minr := if rows < f.rows then rows else f.rows
      let minc := if cols < f.cols then cols else f.cols
      match resize_copy newcells cols f minr minc with
      | none => none
      | some nc => some (0, ⟨rows, cols, nc⟩)

/-! ## ANSI output (lines 117-120) -/

/-- Decimal digits of `n`, most significant first, as ASCII bytes; the fuel
bounds the number of digits. -/
def fmt_digits : Nat → Nat → List Nat → List Nat
  | 0, _, acc => acc
  | fuel + 1, n, acc =>
    if n / 10 = 0 then (48 + n % 10) :: acc
    else fmt_digits fuel (n / 10) ((48 + n % 10) :: acc)

/-- The conversion `%zu` of `fprintf`. -/
def fmt_zu (n : Nat) : List Nat := fmt_digits (n + 1) n []

/-- The bytes `tui_ansi_move_cursor` prints: `ESC [ <r+1> ; <c+1> H`. -/
def tui_ansi_move_cursor (r c : Nat) : List Nat :=
  [27, 91] ++ fmt_zu (r + 1) ++ [59] ++ fmt_zu (c + 1) ++ [72]

/-! ## Presentation context (lines 252-349) -/

/-- The struct `tui_ctx_t`; `out` is the content of the sink. -/
structure tui_ctx_t where
  out : List Nat
  front : tui_frame_t
  back : tui_frame_t
deriving DecidableEq, Repr

/-- The function `tui_ctx_new` (lines 259-288).  Arguments: the bytes already in
the sink, the result of `tui_get_size` (`none` when the query fails), and the
outcomes of the allocator calls.  The outer `Option` is `none` on undefined
behaviour, the inner one is `none` when the function returns `NULL`.  The calls
`tui_enable_raw_mode` and `tui_install_resize_handler` act on the terminal and
on the signal table, not on the context, and have no counterpart here. -/
def tui_ctx_new (out : List Nat) (size : Option (Nat × Nat))
    (ctx_ok front_malloc_ok front_calloc_ok back_malloc_ok back_calloc_ok : Bool) :
    Option (Option tui_ctx_t) :=
  let dims : Nat × Nat := match size with
    | none => (24, 80)
    | some d => d
  if ¬ ctx_ok then some none
  else
    let front := (tui_frame_new front_malloc_ok front_calloc_ok dims.1 dims.2).1
    let back := (tui_frame_new back_malloc_ok back_calloc_ok dims.1 dims.2).1
    match front, back with
    | some fr, some bk =>
      match tui_frame_clear fr 32, tui_frame_clear bk 32 with
      | some fr1, some bk1 => some (some ⟨out, fr1, bk1⟩)
      | _, _ => none
    | _, _ => some none

/-- The extension loop of `tui_present` (line 337):
`while (c < cols && f->cells[r*cols+c] != g->cells[r*cols+c]) ++c;`
returning the final value of `c`. -/
def present_run_end (f g : List Nat) (r cols : Nat) : Nat → Nat → Option Nat
  | 0, _ => none
  | fuel + 1, c =>
    if c < cols then
      match load f (cell_index r cols c), load g (cell_index r cols c) with
      | some a, some b =>
        if a ≠ b then present_run_end f g r cols fuel (c + 1) else some c
      | _, _ => none
    else some c

/-- The emission loop of `tui_present` (lines 340-344): for `i < len` the
sanitized back byte is written to the sink and stored into the front buffer. -/
def present_emit (f : List Nat) (r cols start len : Nat) (out g : List Nat) :
    Option (List Nat × List Nat) :=
  (List.range len).foldlM
    (fun (st : List Nat × List Nat) i =>
      match load f (size_wrap (r * cols + start + i)) with
      | none => none
      | some a =>
        let ch := tui_sanitize_ascii a
        match store st.2 (size_wrap (r * cols + start + i)) ch with
        | none => none
        | some g1 => some (st.1 ++ [ch], g1))
    (out, g)

/-- The column loop of `tui_present` for one row (lines 329-345), started at
column `c` with sink content `out` and front buffer `g`. -/
def present_row (f : List Nat) (r cols : Nat) :
    Nat → Nat → List Nat → List Nat → Option (List Nat × List Nat)
  | 0, _, _, _ => none
  | fuel + 1, c, out, g =>
    if c < cols then
      match load g (cell_index r cols c) with
      | none => none
      | some b =>
        match load f (cell_index r cols c) with
        | none => none
        | some a =>
          if a = b then present_row f r cols fuel (c + 1) out g
          else
            match present_run_end f g r cols (cols + 1) c with
            | none => none
            | some c1 =>
              match present_emit f r cols c (c1 - c) (out ++ tui_ansi_move_cursor r c) g with
              | none => none
              | some st => present_row f r cols fuel c1 st.1 st.2
    else some (out, g)

/-- The function `tui_present` (lines 318-349): the context after the call.
The loop bounds come from the back frame; `fflush` writes no byte. -/
def tui_present (ctx : tui_ctx_t) : Option tui_ctx_t :=
  let rows := ctx.back.rows
  let cols := ctx.back.cols
  match (List.range rows).foldlM
      (fun (st : List Nat × List Nat) r =>
        present_row ctx.back.cells r cols (cols + 1) 0 st.1 st.2)
      (ctx.out, ctx.front.cells) with
  | none => none
  | some st => some { ctx with out := st.1, front := { ctx.front with cells := st.2 } }


/-! ## Resize handling (lines 241-242, 300-315) -/

/-- The function `tui_ctx_handle_resize` (lines 300-315).  Arguments: the value
of `tui_resize_flag` (set by the signal handler, `true` for 1), the result of
`tui_get_size` (`none` when the query fails), the outcomes of the `calloc` calls
of the two resizes, and the context.  Result: the returned `int`, the flag after
the call and the context after the call. -/
def tui_ctx_handle_resize (flag : Bool) (size : Option (Nat × Nat))
    (front_calloc_ok back_calloc_ok : Bool) (ctx : tui_ctx_t) :
    Option (Int × Bool × tui_ctx_t) :=
  if ¬ flag then some (0, flag, ctx)
  else
    match size with
    | none => some (-1, false, ctx)
    | some dims =>
      match tui_frame_resize front_calloc_ok ctx.front dims.1 dims.2 with
      | none => none
      | some resf =>
        if resf.1 = -1 then some (-1, false, { ctx with front := resf.2 })
        else
          match tui_frame_resize back_calloc_ok ctx.back dims.1 dims.2 with
          | none => none
          | some resb =>
            if resb.1 = -1 then some (-1, false, { ctx with front := resf.2, back := resb.2 })
            else
              match tui_frame_clear resb.2 32 with
              | none => none
              | some back2 =>
                match memset resf.2.cells 0 (size_wrap (resf.2.rows * resf.2.cols)) with
                | none => none
                | some cs =>
                  some (1, false, { ctx with front := { resf.2 with cells := cs }, back := back2 })

/-! ## Raw mode, POSIX variant (lines 141-171) -/

/-- The fields of `struct termios` the library touches.  The flag words are
values of the 32-bit type `tcflag_t`; `c_cc` is the array of control
characters. -/
structure termios where
  c_iflag : Nat
  c_oflag : Nat
  c_lflag : Nat
  c_cc : List Nat
deriving DecidableEq, Repr

/-- The constants of the system header `termios.h` that `tui_enable_raw_mode`
names: flag bits and indices into `c_cc`. -/
structure termios_consts where
  ECHO : Nat
  ICANON : Nat
  IEXTEN : Nat
  ISIG : Nat
  IXON : Nat
  ICRNL : Nat
  OPOST : Nat
  VMIN : Nat
  VTIME : Nat
deriving DecidableEq, Repr

/-- The values of these constants on Linux. -/
def linux_termios_consts : termios_consts :=
  ⟨8, 2, 32768, 1, 1024, 256, 1, 6, 5⟩

/-- The statement `x &= ~mask` on a `tcflag_t`. -/
def clear_bits (x mask : Nat) : Nat := x &&& (4294967295 ^^^ mask)

/-- The settings `tui_enable_raw_mode` derives from the captured ones (lines
153-158). -/
def raw_settings (k : termios_consts) (t : termios) : termios :=
  { c_lflag := clear_bits t.c_lflag (k.ECHO ||| k.ICANON ||| k.IEXTEN ||| k.ISIG),
    c_iflag := clear_bits t.c_iflag (k.IXON ||| k.ICRNL),
    c_oflag := clear_bits t.c_oflag k.OPOST,
    c_cc := (t.c_cc.set k.VMIN 0).set k.VTIME 1 }

/-- The process-wide state of the terminal mode controller: the two static
variables of the header, the current settings of the terminal on standard
input, and the number of exit hooks registered with `atexit`. -/
structure raw_mode_t where
  tui_termios_saved : Bool
  tui_orig_termios : termios
  terminal : termios
  atexit_hooks : Nat
deriving DecidableEq, Repr

/-- The function `tui_enable_raw_mode` (lines 148-163).  The flags give the
answers of `isatty`, `tcgetattr` and `tcsetattr`; a successful `tcgetattr`
copies the terminal settings, a successful `tcsetattr` installs the given
ones. -/
def tui_enable_raw_mode (k : termios_consts) (isatty tcgetattr_ok tcsetattr_ok : Bool)
    (s : raw_mode_t) : Int × raw_mode_t :=
  if s.tui_termios_saved then (0, s)
  else if ¬ isatty then (-1, s)
  else if ¬ tcgetattr_ok then (-1, s)
  else
    let s1 := { s with tui_orig_termios := s.terminal }
    let raw := raw_settings k s1.tui_orig_termios
    if ¬ tcsetattr_ok then (-1, s1)
    else
      (0, { s1 with terminal := raw, tui_termios_saved := true,
                    atexit_hooks := s1.atexit_hooks + 1 })

/-- The function `tui_disable_raw_mode` (lines 165-170); the result of
`tcsetattr` is not looked at by the code. -/
def tui_disable_raw_mode (isatty tcsetattr_ok : Bool) (s : raw_mode_t) : raw_mode_t :=
  if ¬ s.tui_termios_saved then s
  else if ¬ isatty then s
  else
    { s with terminal := if tcsetattr_ok then s.tui_orig_termios else s.terminal,
             tui_termios_saved := false }

/-! ## Input polling (lines 205-238) -/

/-- The struct `timeval` handed to `select`. -/
structure timeval where
  tv_sec : Int
  tv_usec : Int
deriving DecidableEq, Repr

/-- The timeout argument `tui_poll_key` hands to `select` in the POSIX variant
(lines 213-216): always the address of `tv`, never a null pointer.  `none`
stands for the null pointer, with which `select` waits without bound.  The
division and remainder of C truncate towards zero. -/
def poll_key_select_timeout (timeout_ms : Int) : Option timeval :=
  some ⟨Int.tdiv timeout_ms 1000, Int.tmod timeout_ms 1000 * 1000⟩

/-- The function `tui_poll_key`, POSIX variant (lines 207-223).  `select` is the
answer of the system call as a function of its timeout argument, `read` the
answer of the system call `read` (the count and the byte). -/
def tui_poll_key (select : Option timeval → Int) (read : Int × Nat) (timeout_ms : Int) : Int :=
  let rv := select (poll_key_select_timeout timeout_ms)
  if rv ≤ 0 then -1
  else if read.1 ≤ 0 then -1
  else (read.2 : Int)

/-- The constant `INFINITE` of the Windows headers. -/
def INFINITE : Nat := 4294967295

/-- The timeout `tui_poll_key` hands to `WaitForSingleObject` in the Windows
variant (lines 225, 231), a `DWORD`. -/
def poll_key_wait_timeout_win32 (timeout_ms : Int) : Nat :=
  if timeout_ms < 0 then INFINITE else (timeout_ms % 4294967296).toNat

/-- A `select` that behaves as POSIX prescribes in the respect that matters here:
it fails at once (returns -1, `EINVAL`) when a field of the timeout is negative,
and otherwise reports standard input ready. -/
def select_rejecting_negative : Option timeval → Int
  | none => 1
  | some tv => if tv.tv_sec < 0 ∨ tv.tv_usec < 0 then -1 else 1

/-! ## The specification of `tui_present`

These definitions follow the description of the presenter, not the code: a
cell is mismatched when back and front differ there, a diff run is a maximal
contiguous span of mismatched cells of one row, and the presenter writes one
block (a cursor move, then the sanitized back bytes of the span) per run. -/

/-- Column `s` starts a maximal run of the columns flagged by `m`: it is flagged,
and it is the first column or its left neighbour is not flagged. -/
def run_start (m : Nat → Bool) (s : Nat) : Bool :=
  m s && (s == 0 || !m (s - 1))

/-- The number of consecutive flagged columns from column `s` on, in a row of
`cols` columns. -/
def run_length (m : Nat → Bool) (cols s : Nat) : Nat :=
  ((List.range' s (cols - s)).takeWhile m).length

/-- The maximal runs of flagged columns of a row of `cols` columns, as pairs
`(start, len)`, from left to right. -/
def maximal_runs (m : Nat → Bool) (cols : Nat) : List (Nat × Nat) :=
  ((List.range cols).filter (run_start m)).map (fun s => (s, run_length m cols s))

/-- The span `[s, s + l)` is a maximal contiguous run of flagged columns: it is
not empty, lies in the row, every column of it is flagged, and it can be extended
neither to the left nor to the right. -/
def is_maximal_run (m : Nat → Bool) (cols s l : Nat) : Prop :=
  1 ≤ l ∧ s + l ≤ cols ∧ (∀ c, s ≤ c → c < s + l → m c = true) ∧
  (s = 0 ∨ m (s - 1) = false) ∧ (s + l = cols ∨ m (s + l) = false)

instance (m : Nat → Bool) (cols s l : Nat) : Decidable (is_maximal_run m cols s l) := by
  unfold is_maximal_run; exact inferInstance

/-- Cell `(r, c)` is mismatched: the back and the front frame differ there. -/
def mismatched (ctx : tui_ctx_t) (r c : Nat) : Bool :=
  decide (tui_frame_get_char ctx.back r c ≠ tui_frame_get_char ctx.front r c)

/-- The block written for the run `(start, len)` of row `r`: the cursor move to
`(r, start)` followed by the `len` sanitized back bytes of the run. -/
def run_block (ctx : tui_ctx_t) (r : Nat) (run : Nat × Nat) : List Nat :=
  tui_ansi_move_cursor r run.1 ++
    (List.range run.2).map
      (fun i => tui_sanitize_ascii ((tui_frame_get_char ctx.back r (run.1 + i)).getD 0))

/-- The bytes the presenter is specified to write: for each row in order, the
blocks of the maximal mismatched runs of that row from left to right. -/
def present_output (ctx : tui_ctx_t) : List Nat :=
  (List.range ctx.back.rows).flatMap
    (fun r => (maximal_runs (mismatched ctx r) ctx.back.cols).flatMap (run_block ctx r))

/-- The number of cursor-move commands the presenter is specified to write: one
per maximal mismatched run. -/
def present_move_count (ctx : tui_ctx_t) : Nat :=
  ((List.range ctx.back.rows).map
    (fun r => (maximal_runs (mismatched ctx r) ctx.back.cols).length)).sum

/-- The number of mismatched cells of the two frames. -/
def mismatch_count (ctx : tui_ctx_t) : Nat :=
  ((List.range ctx.back.rows).map
    (fun r => (List.range ctx.back.cols).countP (mismatched ctx r))).sum

/-- The number of cell bytes the presenter is specified to write: the sum of the
lengths of the maximal mismatched runs. -/
def present_cell_count (ctx : tui_ctx_t) : Nat :=
  ((List.range ctx.back.rows).map
    (fun r => ((maximal_runs (mismatched ctx r) ctx.back.cols).map Prod.snd).sum)).sum

/-- The front buffer `g` while `tui_present` runs, once the cells of index below
`k` have been scanned: a scanned cell that was mismatched holds the sanitized
back byte, every other cell holds its original front byte. -/
def presented_upto (ctx : tui_ctx_t) (k : Nat) (g : List Nat) : Prop :=
  g.length = ctx.front.cells.length ∧
  ∀ j, g.getD j 0 =
    if j < k ∧ ctx.back.cells.getD j 0 ≠ ctx.front.cells.getD j 0 then
      tui_sanitize_ascii (ctx.back.cells.getD j 0)
    else ctx.front.cells.getD j 0

/-- The front buffer after `tui_present`, in closed form: a mismatched cell
holds the sanitized back byte, every other cell is as it was. -/
def present_front (ctx : tui_ctx_t) : List Nat :=
  (List.range ctx.front.cells.length).map
    (fun j =>
      if ctx.back.cells.getD j 0 ≠ ctx.front.cells.getD j 0 then
        tui_sanitize_ascii (ctx.back.cells.getD j 0)
      else ctx.front.cells.getD j 0)

/-- The two frames of a context are well formed and have equal dimensions. -/
def tui_ctx_t.wf (ctx : tui_ctx_t) : Prop :=
  ctx.back.wf ∧ ctx.front.wf ∧ ctx.front.rows = ctx.back.rows ∧ ctx.front.cols = ctx.back.cols

instance (ctx : tui_ctx_t) : Decidable ctx.wf := by
  unfold tui_ctx_t.wf; exact inferInstance

/-! ## Further notions used by the claims -/

/-- Every cell of the frame is a printable byte, 32..126. -/
def tui_frame_t.printable (f : tui_frame_t) : Prop :=
  ∀ b ∈ f.cells, 32 ≤ b ∧ b ≤ 126

instance (f : tui_frame_t) : Decidable f.printable := by
  unfold tui_frame_t.printable; exact inferInstance

/-- A sequence of calls `tui_frame_set_char(f, r, c, ch)`, one per triple
`(r, c, ch)`, the returned values being ignored. -/
def set_chars (f : tui_frame_t) : List (Nat × Nat × Nat) → Option tui_frame_t
  | [] => some f
  | w :: ws =>
    match tui_frame_set_char f w.1 w.2.1 w.2.2 with
    | none => none
    | some res => set_chars res.2 ws

/-- The bytes of a full repaint of the back frame: for each row in order, one
cursor move to column 0 of the row followed by the sanitized bytes of all its
cells. -/
def full_repaint (back : tui_frame_t) : List Nat :=
  (List.range back.rows).flatMap
    (fun r => tui_ansi_move_cursor r 0 ++
      (List.range back.cols).map
        (fun c => tui_sanitize_ascii ((tui_frame_get_char back r c).getD 0)))

/-- The decimal numeral of `n` as ASCII bytes, most significant digit first,
by the library function `Nat.toDigits`. -/
def decimal (n : Nat) : List Nat :=
  (Nat.toDigits 10 n).map Char.toNat

/-- The number a list of ASCII digits denotes in base ten. -/
def decimal_value (l : List Nat) : Nat :=
  l.foldl (fun a d => 10 * a + (d - 48)) 0

/-- The wire form of a cursor move to the cell `(r, c)`, counted from 0:
`ESC [ <r+1> ; <c+1> H`, the two numbers counted from 1 and written in
decimal. -/
def cursor_move_wire (r c : Nat) : List Nat :=
  [27, 91] ++ decimal (r + 1) ++ [59] ++ decimal (c + 1) ++ [72]

/-- The sanitized form of a byte as the description of the data model gives it:
the byte itself when it is in 32..126, the placeholder `?` (63) otherwise. -/
def sanitized (b : Nat) : Nat :=
  if 32 ≤ b ∧ b ≤ 126 then b else 63

/-- The bytes the presenter is specified to write, spelled out on the wire: for
each row in order and each maximal mismatched run of the row from left to right,
the cursor move to the start of the run in wire form, then the sanitized back
bytes of the run. -/
def present_wire (ctx : tui_ctx_t) : List Nat :=
  (List.range ctx.back.rows).flatMap
    (fun r => (maximal_runs (mismatched ctx r) ctx.back.cols).flatMap
      (fun run => cursor_move_wire r run.1 ++
        (List.range run.2).map
          (fun i => sanitized ((tui_frame_get_char ctx.back r (run.1 + i)).getD 0))))

/-- The number of bytes of the cursor moves the presenter is specified to
write. -/
def present_move_bytes (ctx : tui_ctx_t) : Nat :=
  ((List.range ctx.back.rows).map
    (fun r => ((maximal_runs (mismatched ctx r) ctx.back.cols).map
      (fun run => (cursor_move_wire r run.1).length)).sum)).sum

/-- The bytes of a full repaint of a frame spelled out on the wire: for each row
in order, the cursor move to column 0 of that row in wire form, then the bytes
of the cells of the row as they are. -/
def full_repaint_wire (back : tui_frame_t) : List Nat :=
  (List.range back.rows).flatMap
    (fun r => cursor_move_wire r 0 ++
      (List.range back.cols).map (fun c => (tui_frame_get_char back r c).getD 0))

/-! ## Concrete contexts used in the examples -/

/-- One row of six cells: the front is blank, the back differs from it in
columns 0-1 and in column 3, two disjoint runs. -/
def ctx_two_runs : tui_ctx_t :=
  ⟨[], ⟨1, 6, [32, 32, 32, 32, 32, 32]⟩, ⟨1, 6, [120, 120, 32, 121, 32, 32]⟩⟩

/-- Both frames of one cell as `tui_frame_new` leaves them, the cell zero. -/
def ctx_fresh_frames : tui_ctx_t :=
  ⟨[], ⟨1, 1, [0]⟩, ⟨1, 1, [0]⟩⟩

/-- A context of one cell as `tui_ctx_new` leaves it, after the call
`tui_frame_clear(ctx->back, 0)`: the front cell is blank, the back cell zero. -/
def ctx_back_nul : tui_ctx_t :=
  ⟨[], ⟨1, 1, [32]⟩, ⟨1, 1, [0]⟩⟩

/-- The frame of 5 rows and 10 columns filled with blanks. -/
def blank_5x10 : tui_frame_t := ⟨5, 10, List.replicate 50 32⟩

/-- The blank frame of 5 rows and 10 columns after columns 0-4 of row 2 have been
set to `x` (byte 120). -/
def row2_x_5x10 : tui_frame_t :=
  ⟨5, 10, List.replicate 20 32 ++ [120, 120, 120, 120, 120] ++ List.replicate 25 32⟩

/-- A blank context of 2 rows and 2 columns. -/
def ctx_blank_2x2 : tui_ctx_t :=
  ⟨[], ⟨2, 2, [32, 32, 32, 32]⟩, ⟨2, 2, [32, 32, 32, 32]⟩⟩

/-- A context whose front frame has fewer columns than its back frame. -/
def ctx_unequal_dims : tui_ctx_t :=
  ⟨[], ⟨1, 1, [32]⟩, ⟨1, 2, [32, 32]⟩⟩

/-- A state of the terminal mode controller before any call: nothing saved, the
terminal in a cooked mode with echo, canonical input and signals on. -/
def cooked_state : raw_mode_t :=
  ⟨false, ⟨0, 0, 0, List.replicate 32 0⟩, ⟨1280, 5, 35387, List.replicate 32 3⟩, 0⟩

/-- Eleven rows of three cells: the front is blank, the back differs from it in
two runs of row 0 and in one run of row 10. -/
def ctx_eleven_rows : tui_ctx_t :=
  ⟨[], ⟨11, 3, List.replicate 33 32⟩,
    ⟨11, 3, [120, 32, 120] ++ List.replicate 27 32 ++ [32, 121, 121]⟩⟩

/-! ## Basic facts about indices and memory -/

theorem size_wrap_of_le {n : Nat} (h : n ≤ SIZE_MAX) : size_wrap n = n := by
  unfold size_wrap
  exact Nat.mod_eq_of_lt (Nat.lt_succ_of_le h)

theorem index_lt_mul {rows cols r c : Nat} (hr : r < rows) (hc : c < cols) :
    r * cols + c < rows * cols := by
  have h1 : (r + 1) * cols ≤ rows * cols := Nat.mul_le_mul_right cols hr
  have h2 : (r + 1) * cols = r * cols + cols := Nat.succ_mul r cols
  omega

theorem cell_index_eq {rows cols r c : Nat} (hb : rows * cols ≤ SIZE_MAX)
    (hr : r < rows) (hc : c < cols) : cell_index r cols c = r * cols + c := by
  unfold cell_index
  apply size_wrap_of_le
  have := index_lt_mul hr hc
  omega

theorem load_eq_getD {buf : List Nat} {i : Nat} (h : i < buf.length) :
    load buf i = some (buf.getD i 0) := by
  simp [load, List.getD, List.getElem?_eq_getElem h]

theorem getD_set (buf : List Nat) (i j v : Nat) (h : i < buf.length) :
    (buf.set i v).getD j 0 = if j = i then v else buf.getD j 0 := by
  simp only [List.getD, List.getElem?_set]
  by_cases hji : j = i
  · subst hji; simp [h]
  · have : ¬ i = j := fun e => hji e.symm
    simp [hji, this]

theorem guard_iff (rows cols : Nat) (hr : 0 < rows) :
    cols > SIZE_MAX / rows ↔ rows * cols > SIZE_MAX := by
  show SIZE_MAX / rows < cols ↔ SIZE_MAX < rows * cols
  rw [Nat.div_lt_iff_lt_mul hr, Nat.mul_comm]

/-- The frame a successful `tui_frame_new true true rows cols` returns. -/
theorem frame_new_eq (rows cols : Nat) (hr : 0 < rows) (hc : 0 < cols)
    (h : rows * cols ≤ SIZE_MAX) :
    tui_frame_new true true rows cols =
      (some ⟨rows, cols, List.replicate (rows * cols) 0⟩,
       [alloc_call.malloc_frame, alloc_call.calloc_cells (rows * cols)]) := by
  have hg : ¬ (rows = 0 ∨ cols = 0 ∨ cols > SIZE_MAX / rows) := by
    rw [guard_iff rows cols hr]; omega
  simp [tui_frame_new, hg, size_wrap_of_le h]

theorem get_char_in_bounds (f : tui_frame_t) (hf : f.wf) (r c : Nat)
    (hr : r < f.rows) (hc : c < f.cols) :
    tui_frame_get_char f r c = some (f.cells.getD (r * f.cols + c) 0) := by
  have hg : ¬ (r ≥ f.rows ∨ c ≥ f.cols) := by omega
  have hi := index_lt_mul hr hc
  rw [tui_frame_get_char, if_neg hg, cell_index_eq hf.2 hr hc]
  exact load_eq_getD (by rw [hf.1]; exact hi)

/-- A `for` loop over `0 .. n-1` in the `Option` monad returns when every
iteration does, and an invariant of the iterations holds at the end. -/
theorem foldlM_range_inv {σ : Type} (step : σ → Nat → Option σ) (P : Nat → σ → Prop)
    (n : Nat) (s0 : σ) (h0 : P 0 s0)
    (hstep : ∀ k s, k < n → P k s → ∃ s1, step s k = some s1 ∧ P (k + 1) s1) :
    ∃ s, (List.range n).foldlM step s0 = some s ∧ P n s := by
  induction n with
  | zero => exact ⟨s0, by simp, h0⟩
  | succ m ih =>
    obtain ⟨s, hs, hP⟩ := ih (fun k s hk hp => hstep k s (Nat.lt_succ_of_lt hk) hp)
    obtain ⟨s1, hs1, hP1⟩ := hstep m s (Nat.lt_succ_self m) hP
    refine ⟨s1, ?_, hP1⟩
    rw [List.range_succ, List.foldlM_append, hs]
    simp [hs1]

/-- The effect of `memcpy` when both ranges lie inside their buffers. -/
theorem memcpy_spec (src : List Nat) (n : Nat) : ∀ (dst : List Nat) (d s : Nat),
    d + n ≤ dst.length → s + n ≤ src.length →
    ∃ dst1, memcpy dst d src s n = some dst1 ∧ dst1.length = dst.length ∧
      ∀ j, dst1.getD j 0 =
        if d ≤ j ∧ j < d + n then src.getD (s + (j - d)) 0 else dst.getD j 0 := by
  induction n with
  | zero =>
    intro dst d s _ _
    refine ⟨dst, rfl, rfl, ?_⟩
    intro j
    have : ¬ (d ≤ j ∧ j < d + 0) := by omega
    rw [if_neg this]
  | succ m ih =>
    intro dst d s hd hs
    have hs1 : s < src.length := by omega
    have hd1 : d < dst.length := by omega
    obtain ⟨dst1, h1, hlen, hget⟩ := ih (dst.set d (src.getD s 0)) (d + 1) (s + 1)
      (by simp; omega) (by omega)
    refine ⟨dst1, ?_, by simpa using hlen, ?_⟩
    · simp only [memcpy, load_eq_getD hs1, store, if_pos hd1]
      exact h1
    · intro j
      rw [hget j, getD_set _ _ _ _ hd1]
      by_cases hj : j = d
      · subst hj
        have a : ¬ (j + 1 ≤ j ∧ j < j + 1 + m) := by omega
        have b : j ≤ j ∧ j < j + (m + 1) := by omega
        rw [if_neg a, if_pos rfl, if_pos b]
        simp
      · by_cases hin : d + 1 ≤ j ∧ j < d + 1 + m
        · have b : d ≤ j ∧ j < d + (m + 1) := by omega
          rw [if_pos hin, if_pos b]
          congr 1
          omega
        · have b : ¬ (d ≤ j ∧ j < d + (m + 1)) := by omega
          rw [if_neg hin, if_neg b, if_neg hj]

/-- The copy loop of `tui_frame_resize` on a zero-filled buffer of the new size. -/
theorem resize_copy_spec (old : tui_frame_t) (hold : old.wf) (rows cols minr minc : Nat)
    (hb : rows * cols ≤ SIZE_MAX)
    (hmr : minr ≤ rows) (hmr1 : minr ≤ old.rows) (hmc : minc ≤ cols) (hmc1 : minc ≤ old.cols) :
    ∃ nc, resize_copy (List.replicate (rows * cols) 0) cols old minr minc = some nc ∧
      nc.length = rows * cols ∧
      ∀ r c, r < rows → c < cols →
        nc.getD (r * cols + c) 0 =
          if r < minr ∧ c < minc then old.cells.getD (r * old.cols + c) 0 else 0 := by
  unfold resize_copy
  apply foldlM_range_inv _
    (fun k (nc : List Nat) => nc.length = rows * cols ∧
      ∀ r c, r < rows → c < cols →
        nc.getD (r * cols + c) 0 =
          if r < k ∧ c < minc then old.cells.getD (r * old.cols + c) 0 else 0)
  · refine ⟨by simp, ?_⟩
    intro r c hr hc
    have := index_lt_mul hr hc
    simp [List.getD, List.getElem?_replicate, this]
  · intro k nc hk ⟨hlen, hinv⟩
    have hkr : k < rows := by omega
    have hko : k < old.rows := by omega
    have e1 : (k + 1) * cols = k * cols + cols := Nat.succ_mul k cols
    have e2 : (k + 1) * old.cols = k * old.cols + old.cols := Nat.succ_mul k old.cols
    have l1 : (k + 1) * cols ≤ rows * cols := Nat.mul_le_mul_right cols hkr
    have l2 : (k + 1) * old.cols ≤ old.rows * old.cols := Nat.mul_le_mul_right old.cols hko
    have w1 : size_wrap (k * cols) = k * cols := size_wrap_of_le (by omega)
    have w2 : size_wrap (k * old.cols) = k * old.cols :=
      size_wrap_of_le (by have := hold.2; omega)
    obtain ⟨nc1, h1, hlen1, hget⟩ := memcpy_spec old.cells minc nc (k * cols) (k * old.cols)
      (by rw [hlen]; omega) (by rw [hold.1]; omega)
    refine ⟨nc1, by rw [w1, w2]; exact h1, by rw [hlen1, hlen], ?_⟩
    intro r c hr hc
    rw [hget]
    rcases Nat.lt_trichotomy r k with hlt | heq | hgt
    · have : r * cols + c < k * cols := index_lt_mul hlt hc
      have a : ¬ (k * cols ≤ r * cols + c ∧ r * cols + c < k * cols + minc) := by omega
      rw [if_neg a, hinv r c hr hc]
      have b : (r < k ∧ c < minc) ↔ (r < k + 1 ∧ c < minc) := by constructor <;> intro h <;> omega
      simp only [b]
    · subst heq
      by_cases hcm : c < minc
      · have a : r * cols ≤ r * cols + c ∧ r * cols + c < r * cols + minc := by omega
        have b : r < r + 1 ∧ c < minc := by omega
        rw [if_pos a, if_pos b]
        congr 1
        omega
      · have a : ¬ (r * cols ≤ r * cols + c ∧ r * cols + c < r * cols + minc) := by omega
        have b : ¬ (r < r + 1 ∧ c < minc) := by omega
        have b0 : ¬ (r < r ∧ c < minc) := by omega
        rw [if_neg a, if_neg b, hinv r c hr hc, if_neg b0]
    · have : (k + 1) * cols ≤ r * cols := Nat.mul_le_mul_right cols hgt
      have a : ¬ (k * cols ≤ r * cols + c ∧ r * cols + c < k * cols + minc) := by omega
      have b : ¬ (r < k + 1 ∧ c < minc) := by omega
      have b0 : ¬ (r < k ∧ c < minc) := by omega
      rw [if_neg a, if_neg b, hinv r c hr hc, if_neg b0]

/-! ## Maximal runs of flagged columns -/

/-- One step of the count of consecutive flagged columns. -/
theorem run_length_step (m : Nat → Bool) (cols s : Nat) :
    run_length m cols s =
      if s < cols then (if m s = true then 1 + run_length m cols (s + 1) else 0) else 0 := by
  unfold run_length
  by_cases h : s < cols
  · have e : cols - s = (cols - (s + 1)) + 1 := by omega
    rw [if_pos h, e, List.range'_succ, List.takeWhile_cons]
    by_cases hm : m s = true
    · rw [if_pos hm, if_pos hm, List.length_cons]; omega
    · rw [if_neg hm, if_neg hm]; rfl
  · have e : cols - s = 0 := by omega
    rw [if_neg h, e]; rfl

theorem run_length_le (m : Nat → Bool) (cols s : Nat) (h : s ≤ cols) :
    s + run_length m cols s ≤ cols := by
  have h1 : run_length m cols s ≤ (List.range' s (cols - s)).length :=
    (List.takeWhile_sublist m).length_le
  rw [List.length_range'] at h1
  omega

theorem run_length_pos (m : Nat → Bool) (cols s : Nat) (h : s < cols) (hm : m s = true) :
    1 ≤ run_length m cols s := by
  rw [run_length_step, if_pos h, if_pos hm]; omega

/-- Every column of the span counted by `run_length` is flagged, and the column
after the span, when there is one, is not. -/
theorem run_length_spec (m : Nat → Bool) (cols : Nat) : ∀ (n s : Nat), cols - s = n →
    (∀ c, s ≤ c → c < s + run_length m cols s → m c = true) ∧
    (s + run_length m cols s < cols → m (s + run_length m cols s) = false) := by
  intro n
  induction n with
  | zero =>
    intro s hs
    have h : ¬ s < cols := by omega
    rw [run_length_step, if_neg h]
    exact ⟨fun c h1 h2 => by omega, fun h1 => by omega⟩
  | succ k ih =>
    intro s hs
    have h : s < cols := by omega
    rw [run_length_step, if_pos h]
    by_cases hm : m s = true
    · rw [if_pos hm]
      obtain ⟨ha, hb⟩ := ih (s + 1) (by omega)
      constructor
      · intro c h1 h2
        by_cases hc : c = s
        · rw [hc]; exact hm
        · exact ha c (by omega) (by omega)
      · intro h1
        have e : s + (1 + run_length m cols (s + 1)) = s + 1 + run_length m cols (s + 1) := by
          omega
        rw [e] at h1 ⊢
        exact hb h1
    · rw [if_neg hm]
      refine ⟨fun c h1 h2 => by omega, fun _ => ?_⟩
      simpa using hm

theorem run_length_flagged (m : Nat → Bool) (cols s c : Nat) (h1 : s ≤ c)
    (h2 : c < s + run_length m cols s) : m c = true :=
  (run_length_spec m cols (cols - s) s rfl).1 c h1 h2

theorem run_length_stop (m : Nat → Bool) (cols s : Nat) (h : s ≤ cols) :
    s + run_length m cols s = cols ∨ m (s + run_length m cols s) = false := by
  have h1 := run_length_le m cols s h
  by_cases he : s + run_length m cols s = cols
  · exact Or.inl he
  · exact Or.inr ((run_length_spec m cols (cols - s) s rfl).2 (by omega))

/-- A span of flagged columns that cannot be extended to the right has the
length `run_length` computes. -/
theorem run_length_unique (m : Nat → Bool) (cols s l : Nat) (hl : s + l ≤ cols)
    (hall : ∀ c, s ≤ c → c < s + l → m c = true)
    (hstop : s + l = cols ∨ m (s + l) = false) : run_length m cols s = l := by
  have hs : s ≤ cols := by omega
  have hle := run_length_le m cols s hs
  rcases Nat.lt_trichotomy (run_length m cols s) l with hlt | heq | hgt
  · have h1 := hall (s + run_length m cols s) (by omega) (by omega)
    rcases run_length_stop m cols s hs with h2 | h2
    · omega
    · rw [h1] at h2; exact absurd h2 (by decide)
  · exact heq
  · have h1 := run_length_flagged m cols s (s + l) (by omega) (by omega)
    rcases hstop with h2 | h2
    · omega
    · rw [h1] at h2; exact absurd h2 (by decide)

/-- No run starts strictly inside a span of flagged columns. -/
theorem filter_run_start_inside (m : Nat → Bool) (c k : Nat)
    (hall : ∀ x, c ≤ x → x < c + k → m x = true) :
    (List.range' (c + 1) k).filter (run_start m) = [] := by
  rw [List.filter_eq_nil_iff]
  intro x hx
  rw [List.mem_range'_1] at hx
  have h1 : m (x - 1) = true := hall (x - 1) (by omega) (by omega)
  have h2 : (x == 0) = false := by
    rw [beq_eq_false_iff_ne]; omega
  simp [run_start, h1, h2]

theorem run_starts_end (m : Nat → Bool) (cols c : Nat) (h : cols ≤ c) :
    (List.range' c (cols - c)).filter (run_start m) = [] := by
  have e : cols - c = 0 := by omega
  rw [e]; rfl

theorem run_starts_skip (m : Nat → Bool) (cols c : Nat) (h : c < cols) (hm : m c = false) :
    (List.range' c (cols - c)).filter (run_start m) =
      (List.range' (c + 1) (cols - (c + 1))).filter (run_start m) := by
  have e : cols - c = (cols - (c + 1)) + 1 := by omega
  have hs : ¬ (run_start m c = true) := by simp [run_start, hm]
  rw [e, List.range'_succ, List.filter_cons, if_neg hs]

theorem run_starts_run (m : Nat → Bool) (cols c : Nat) (h : c < cols) (hm : m c = true)
    (hleft : c = 0 ∨ m (c - 1) = false) :
    (List.range' c (cols - c)).filter (run_start m) =
      c :: (List.range' (c + run_length m cols c)
              (cols - (c + run_length m cols c))).filter (run_start m) := by
  have hpos := run_length_pos m cols c h hm
  have hle := run_length_le m cols c (Nat.le_of_lt h)
  have hs : run_start m c = true := by
    rcases hleft with h0 | h0
    · subst h0; simp [run_start, hm]
    · simp [run_start, hm, h0]
  have e : cols - c = (cols - (c + 1)) + 1 := by omega
  have e2 : List.range' (c + 1) (cols - (c + 1)) =
      List.range' (c + 1) (run_length m cols c - 1) ++
        List.range' (c + run_length m cols c) (cols - (c + run_length m cols c)) := by
    have := List.range'_append (c + 1) (run_length m cols c - 1)
      (cols - (c + run_length m cols c)) 1
    have e3 : c + 1 + 1 * (run_length m cols c - 1) = c + run_length m cols c := by omega
    have e4 : cols - (c + run_length m cols c) + (run_length m cols c - 1) = cols - (c + 1) := by
      omega
    rw [e3, e4] at this
    exact this.symm
  rw [e, List.range'_succ, List.filter_cons, if_pos hs, e2, List.filter_append,
    filter_run_start_inside m c (run_length m cols c - 1)
      (fun x h1 h2 => run_length_flagged m cols c x h1 (by omega))]
  rfl

/-- Induction along the column scan of a row: from a column where no run is
open, the scan either is at the end, skips an unflagged column, or jumps over
the whole run that starts there. -/
theorem scan_induction (m : Nat → Bool) (cols : Nat) (P : Nat → Prop)
    (hend : ∀ c, cols ≤ c → P c)
    (hskip : ∀ c, c < cols → m c = false → P (c + 1) → P c)
    (hrun : ∀ c, c < cols → m c = true → (c = 0 ∨ m (c - 1) = false) →
      P (c + run_length m cols c) → P c) :
    ∀ (n c : Nat), cols - c = n → (c = 0 ∨ m (c - 1) = false ∨ cols ≤ c ∨ m c = false) → P c := by
  intro n
  induction n using Nat.strong_induction_on with
  | _ n ih =>
    intro c hn hb
    by_cases h : c < cols
    · by_cases hm : m c = true
      · have hleft : c = 0 ∨ m (c - 1) = false := by
          rcases hb with h0 | h0 | h0 | h0
          · exact Or.inl h0
          · exact Or.inr h0
          · omega
          · rw [hm] at h0; exact absurd h0 (by decide)
        have hpos := run_length_pos m cols c h hm
        have hle := run_length_le m cols c (Nat.le_of_lt h)
        apply hrun c h hm hleft
        apply ih (cols - (c + run_length m cols c)) (by omega) _ rfl
        rcases run_length_stop m cols c (Nat.le_of_lt h) with h1 | h1
        · exact Or.inr (Or.inr (Or.inl (by omega)))
        · exact Or.inr (Or.inr (Or.inr h1))
      · have hm0 : m c = false := by simpa using hm
        apply hskip c h hm0
        apply ih (cols - (c + 1)) (by omega) _ rfl
        exact Or.inr (Or.inl (by simpa using hm0))
    · exact hend c (by omega)

/-- The list `maximal_runs` holds exactly the maximal contiguous runs. -/
theorem mem_maximal_runs (m : Nat → Bool) (cols s l : Nat) :
    (s, l) ∈ maximal_runs m cols ↔ is_maximal_run m cols s l := by
  unfold maximal_runs is_maximal_run
  rw [List.mem_map]
  constructor
  · rintro ⟨s1, hs1, heq⟩
    rw [List.mem_filter, List.mem_range] at hs1
    obtain ⟨hlt, hst⟩ := hs1
    have h1 : s1 = s := congrArg Prod.fst heq
    have h2 : run_length m cols s1 = l := congrArg Prod.snd heq
    subst h1
    subst h2
    have hm : m s1 = true := by
      simp [run_start] at hst; exact hst.1
    have hleft : s1 = 0 ∨ m (s1 - 1) = false := by
      simp [run_start] at hst; exact hst.2
    exact ⟨run_length_pos m cols s1 hlt hm, run_length_le m cols s1 (Nat.le_of_lt hlt),
      fun c h1 h2 => run_length_flagged m cols s1 c h1 h2, hleft,
      run_length_stop m cols s1 (Nat.le_of_lt hlt)⟩
  · rintro ⟨hl, hle, hall, hleft, hstop⟩
    refine ⟨s, ?_, ?_⟩
    · rw [List.mem_filter, List.mem_range]
      refine ⟨by omega, ?_⟩
      have hm : m s = true := hall s (Nat.le_refl s) (by omega)
      rcases hleft with h0 | h0
      · subst h0; simp [run_start, hm]
      · simp [run_start, hm, h0]
    · rw [run_length_unique m cols s l hle hall hstop]

/-- The runs of `maximal_runs` are listed from left to right. -/
theorem maximal_runs_sorted (m : Nat → Bool) (cols : Nat) :
    ((maximal_runs m cols).map Prod.fst).Pairwise (fun a b => a < b) := by
  unfold maximal_runs
  rw [List.map_map]
  have e : (Prod.fst ∘ fun s => (s, run_length m cols s)) = id := rfl
  rw [e, List.map_id]
  exact (List.pairwise_lt_range cols).sublist (List.filter_sublist _)

/-- The lengths of the maximal runs add up to the number of flagged columns. -/
theorem maximal_runs_total (m : Nat → Bool) (cols : Nat) :
    ((maximal_runs m cols).map Prod.snd).sum = (List.range cols).countP m := by
  have key : ∀ (n c : Nat), cols - c = n →
      (c = 0 ∨ m (c - 1) = false ∨ cols ≤ c ∨ m c = false) →
      ((((List.range' c (cols - c)).filter (run_start m)).map
          (fun s => run_length m cols s)).sum =
        (List.range' c (cols - c)).countP m) := by
    apply scan_induction m cols
    · intro c h
      rw [run_starts_end m cols c h]
      have e : cols - c = 0 := by omega
      rw [e]; rfl
    · intro c h hm ih
      rw [run_starts_skip m cols c h hm, ih]
      have e : cols - c = (cols - (c + 1)) + 1 := by omega
      rw [e, List.range'_succ, List.countP_cons]
      simp [hm]
    · intro c h hm hleft ih
      have hpos := run_length_pos m cols c h hm
      have hle := run_length_le m cols c (Nat.le_of_lt h)
      rw [run_starts_run m cols c h hm hleft, List.map_cons, List.sum_cons, ih]
      have e2 : List.range' c (cols - c) =
          List.range' c (run_length m cols c) ++
            List.range' (c + run_length m cols c) (cols - (c + run_length m cols c)) := by
        have := List.range'_append c (run_length m cols c)
          (cols - (c + run_length m cols c)) 1
        have e3 : c + 1 * run_length m cols c = c + run_length m cols c := by omega
        have e4 : cols - (c + run_length m cols c) + run_length m cols c = cols - c := by omega
        rw [e3, e4] at this
        exact this.symm
      have e5 : (List.range' c (run_length m cols c)).countP m = run_length m cols c := by
        have : (List.range' c (run_length m cols c)).countP m =
            (List.range' c (run_length m cols c)).length := by
          rw [List.countP_eq_length]
          intro x hx
          rw [List.mem_range'_1] at hx
          exact run_length_flagged m cols c x hx.1 hx.2
        rw [this, List.length_range']
      rw [e2, List.countP_append, e5]
  have h0 := key (cols - 0) 0 rfl (Or.inl rfl)
  unfold maximal_runs
  rw [List.map_map, List.range_eq_range']
  have e : (Prod.snd ∘ fun s => (s, run_length m cols s)) = fun s => run_length m cols s := rfl
  rw [e]
  simpa using h0

/-! ## The loops of `tui_present` -/

theorem presented_upto_get (ctx : tui_ctx_t) (k : Nat) (g : List Nat)
    (h : presented_upto ctx k g) (j : Nat) (hj : k ≤ j) :
    g.getD j 0 = ctx.front.cells.getD j 0 := by
  have a : ¬ (j < k ∧ ctx.back.cells.getD j 0 ≠ ctx.front.cells.getD j 0) := by omega
  rw [h.2 j, if_neg a]

theorem presented_upto_skip (ctx : tui_ctx_t) (k : Nat) (g : List Nat)
    (h : presented_upto ctx k g)
    (he : ctx.back.cells.getD k 0 = ctx.front.cells.getD k 0) :
    presented_upto ctx (k + 1) g := by
  refine ⟨h.1, fun j => ?_⟩
  rw [h.2 j]
  by_cases hj : j = k
  · subst hj
    have a : ¬ (j < j ∧ ctx.back.cells.getD j 0 ≠ ctx.front.cells.getD j 0) := by omega
    have b : ¬ (j < j + 1 ∧ ctx.back.cells.getD j 0 ≠ ctx.front.cells.getD j 0) :=
      fun x => x.2 he
    rw [if_neg a, if_neg b]
  · have e : (j < k ∧ ctx.back.cells.getD j 0 ≠ ctx.front.cells.getD j 0) ↔
        (j < k + 1 ∧ ctx.back.cells.getD j 0 ≠ ctx.front.cells.getD j 0) := by
      constructor <;> intro x <;> exact ⟨by omega, x.2⟩
    simp only [e]

theorem presented_upto_store (ctx : tui_ctx_t) (k : Nat) (g : List Nat)
    (h : presented_upto ctx k g) (hk : k < ctx.front.cells.length)
    (hne : ctx.back.cells.getD k 0 ≠ ctx.front.cells.getD k 0) :
    presented_upto ctx (k + 1) (g.set k (tui_sanitize_ascii (ctx.back.cells.getD k 0))) := by
  refine ⟨by rw [List.length_set]; exact h.1, fun j => ?_⟩
  rw [getD_set _ _ _ _ (by rw [h.1]; exact hk)]
  by_cases hj : j = k
  · subst hj
    have b : j < j + 1 ∧ ctx.back.cells.getD j 0 ≠ ctx.front.cells.getD j 0 :=
      ⟨by omega, hne⟩
    rw [if_pos rfl, if_pos b]
  · have e : (j < k ∧ ctx.back.cells.getD j 0 ≠ ctx.front.cells.getD j 0) ↔
        (j < k + 1 ∧ ctx.back.cells.getD j 0 ≠ ctx.front.cells.getD j 0) := by
      constructor <;> intro x <;> exact ⟨by omega, x.2⟩
    rw [if_neg hj, h.2 j]
    simp only [e]

/-- On a well-formed context, a cell is mismatched exactly when the two buffers
differ at its row-major index. -/
theorem mismatched_iff (ctx : tui_ctx_t) (hw : ctx.wf) (r c : Nat)
    (hr : r < ctx.back.rows) (hc : c < ctx.back.cols) :
    mismatched ctx r c = true ↔
      ctx.back.cells.getD (r * ctx.back.cols + c) 0 ≠
        ctx.front.cells.getD (r * ctx.back.cols + c) 0 := by
  obtain ⟨hb, hf, hrows, hcols⟩ := hw
  unfold mismatched
  rw [get_char_in_bounds ctx.back hb r c hr hc,
    get_char_in_bounds ctx.front hf r c (by omega) (by omega), hcols]
  simp

theorem front_length (ctx : tui_ctx_t) (hw : ctx.wf) :
    ctx.front.cells.length = ctx.back.rows * ctx.back.cols := by
  obtain ⟨_, hf, hrows, hcols⟩ := hw
  rw [hf.1, hrows, hcols]

/-- The extension loop stops at the end of the run that starts at column `c`. -/
theorem present_run_end_spec (ctx : tui_ctx_t) (hw : ctx.wf) (r : Nat)
    (hr : r < ctx.back.rows) (g : List Nat) (hlen : g.length = ctx.front.cells.length) :
    ∀ (fuel c : Nat), c ≤ ctx.back.cols → ctx.back.cols - c < fuel →
      (∀ j, r * ctx.back.cols + c ≤ j → g.getD j 0 = ctx.front.cells.getD j 0) →
      present_run_end ctx.back.cells g r ctx.back.cols fuel c =
        some (c + run_length (mismatched ctx r) ctx.back.cols c) := by
  intro fuel
  induction fuel with
  | zero => intro c _ h; omega
  | succ n ih =>
    intro c hc hfuel hg
    rw [run_length_step]
    by_cases hlt : c < ctx.back.cols
    · have hi := index_lt_mul hr hlt
      have hlf : r * ctx.back.cols + c < ctx.back.cells.length := by rw [hw.1.1]; exact hi
      have hlg : r * ctx.back.cols + c < g.length := by rw [hlen, front_length ctx hw]; exact hi
      have hm := mismatched_iff ctx hw r c hr hlt
      simp only [present_run_end, if_pos hlt, cell_index_eq hw.1.2 hr hlt, load_eq_getD hlf,
        load_eq_getD hlg, hg _ (Nat.le_refl _)]
      by_cases hne : ctx.back.cells.getD (r * ctx.back.cols + c) 0 ≠
          ctx.front.cells.getD (r * ctx.back.cols + c) 0
      · rw [if_pos hne, if_pos (hm.mpr hne),
          ih (c + 1) (by omega) (by omega) (fun j hj => hg j (by omega))]
        congr 1
        omega
      · have hm0 : ¬ (mismatched ctx r c = true) := fun x => hne (hm.mp x)
        rw [if_neg hne, if_neg hm0]
        rfl
    · simp only [present_run_end, if_neg hlt]
      rfl

/-- The emission loop writes the sanitized back bytes of the span and stores
them into the front buffer. -/
theorem present_emit_spec (ctx : tui_ctx_t) (hw : ctx.wf) (r : Nat) (hr : r < ctx.back.rows)
    (start len : Nat) (hle : start + len ≤ ctx.back.cols)
    (hall : ∀ c, start ≤ c → c < start + len → mismatched ctx r c = true)
    (out g : List Nat) (hg : presented_upto ctx (r * ctx.back.cols + start) g) :
    ∃ g1, present_emit ctx.back.cells r ctx.back.cols start len out g =
        some (out ++ (List.range len).map (fun i =>
          tui_sanitize_ascii ((tui_frame_get_char ctx.back r (start + i)).getD 0)), g1) ∧
      presented_upto ctx (r * ctx.back.cols + start + len) g1 := by
  have key := foldlM_range_inv
    (fun (st : List Nat × List Nat) i =>
      match load ctx.back.cells (size_wrap (r * ctx.back.cols + start + i)) with
      | none => none
      | some a =>
        match store st.2 (size_wrap (r * ctx.back.cols + start + i)) (tui_sanitize_ascii a) with
        | none => none
        | some g1 => some (st.1 ++ [tui_sanitize_ascii a], g1))
    (fun k (st : List Nat × List Nat) =>
      st.1 = out ++ (List.range k).map (fun i =>
        tui_sanitize_ascii ((tui_frame_get_char ctx.back r (start + i)).getD 0)) ∧
      presented_upto ctx (r * ctx.back.cols + start + k) st.2)
    len (out, g) ⟨by simp, hg⟩
    (by
      intro k st hk hP
      obtain ⟨h1, h2⟩ := hP
      have hc : start + k < ctx.back.cols := by omega
      have hi := index_lt_mul hr hc
      have hidx : r * ctx.back.cols + start + k = r * ctx.back.cols + (start + k) := by omega
      have hw1 : size_wrap (r * ctx.back.cols + start + k) = r * ctx.back.cols + start + k := by
        apply size_wrap_of_le
        have := hw.1.2
        omega
      have hlf : r * ctx.back.cols + start + k < ctx.back.cells.length := by
        rw [hw.1.1]; omega
      have hlfr : r * ctx.back.cols + start + k < ctx.front.cells.length := by
        rw [front_length ctx hw]; omega
      have hlg : r * ctx.back.cols + start + k < st.2.length := by
        rw [h2.1]; exact hlfr
      have hne := (mismatched_iff ctx hw r (start + k) hr hc).mp (hall _ (by omega) (by omega))
      rw [← hidx] at hne
      refine ⟨(st.1 ++ [tui_sanitize_ascii (ctx.back.cells.getD (r * ctx.back.cols + start + k) 0)],
        st.2.set (r * ctx.back.cols + start + k)
          (tui_sanitize_ascii (ctx.back.cells.getD (r * ctx.back.cols + start + k) 0))), ?_, ?_, ?_⟩
      · simp only [hw1, load_eq_getD hlf, store, if_pos hlg]
      · show st.1 ++ _ = _
        rw [h1, List.range_succ, List.map_append, List.append_assoc]
        congr 1
        simp only [List.map_cons, List.map_nil]
        rw [get_char_in_bounds ctx.back hw.1 r (start + k) hr hc, hidx]
        rfl
      · exact presented_upto_store ctx _ st.2 h2 hlfr hne)
  obtain ⟨st, hst, hP1, hP2⟩ := key
  refine ⟨st.2, ?_, hP2⟩
  unfold present_emit
  rw [← hP1]
  exact hst

/-- The column loop of one row, started at a column where no run is open, writes
the blocks of the maximal runs from that column on and leaves the front buffer
processed up to the end of the row. -/
theorem present_row_spec (ctx : tui_ctx_t) (hw : ctx.wf) (r : Nat) (hr : r < ctx.back.rows) :
    ∀ (fuel c : Nat) (out g : List Nat), c ≤ ctx.back.cols → ctx.back.cols - c < fuel →
      presented_upto ctx (r * ctx.back.cols + c) g →
      (c = 0 ∨ mismatched ctx r (c - 1) = false ∨ ctx.back.cols ≤ c ∨
        mismatched ctx r c = false) →
      ∃ g1, present_row ctx.back.cells r ctx.back.cols fuel c out g =
          some (out ++
            ((List.range' c (ctx.back.cols - c)).filter (run_start (mismatched ctx r))).flatMap
              (fun s => run_block ctx r (s, run_length (mismatched ctx r) ctx.back.cols s)),
            g1) ∧
        presented_upto ctx (r * ctx.back.cols + ctx.back.cols) g1 := by
  intro fuel
  induction fuel with
  | zero => intro c _ _ _ h; omega
  | succ n ih =>
    intro c out g hc hfuel hg hb
    by_cases hlt : c < ctx.back.cols
    · have hi := index_lt_mul hr hlt
      have hlf : r * ctx.back.cols + c < ctx.back.cells.length := by rw [hw.1.1]; exact hi
      have hlg : r * ctx.back.cols + c < g.length := by
        rw [hg.1, front_length ctx hw]; exact hi
      have hm := mismatched_iff ctx hw r c hr hlt
      simp only [present_row, if_pos hlt, cell_index_eq hw.1.2 hr hlt, load_eq_getD hlf,
        load_eq_getD hlg, presented_upto_get ctx _ g hg _ (Nat.le_refl _)]
      by_cases hne : ctx.back.cells.getD (r * ctx.back.cols + c) 0 ≠
          ctx.front.cells.getD (r * ctx.back.cols + c) 0
      · have hmt : mismatched ctx r c = true := hm.mpr hne
        have hleft : c = 0 ∨ mismatched ctx r (c - 1) = false := by
          rcases hb with h0 | h0 | h0 | h0
          · exact Or.inl h0
          · exact Or.inr h0
          · omega
          · rw [hmt] at h0; exact absurd h0 (by decide)
        have hpos := run_length_pos (mismatched ctx r) ctx.back.cols c hlt hmt
        have hle := run_length_le (mismatched ctx r) ctx.back.cols c hc
        have hne1 : ¬ (ctx.back.cells.getD (r * ctx.back.cols + c) 0 =
            ctx.front.cells.getD (r * ctx.back.cols + c) 0) := hne
        rw [if_neg hne1,
          present_run_end_spec ctx hw r hr g hg.1 (ctx.back.cols + 1) c hc (by omega)
            (fun j hj => presented_upto_get ctx _ g hg j hj)]
        simp only [Nat.add_sub_cancel_left]
        obtain ⟨g1, he, hg1⟩ := present_emit_spec ctx hw r hr c
          (run_length (mismatched ctx r) ctx.back.cols c) hle
          (fun x h1 h2 => run_length_flagged (mismatched ctx r) ctx.back.cols c x h1 h2)
          (out ++ tui_ansi_move_cursor r c) g hg
        rw [he]
        simp only []
        have hspan : r * ctx.back.cols + c + run_length (mismatched ctx r) ctx.back.cols c =
            r * ctx.back.cols + (c + run_length (mismatched ctx r) ctx.back.cols c) := by omega
        rw [hspan] at hg1
        obtain ⟨g2, he2, hg2⟩ := ih (c + run_length (mismatched ctx r) ctx.back.cols c)
          (out ++ tui_ansi_move_cursor r c ++
            (List.range (run_length (mismatched ctx r) ctx.back.cols c)).map (fun i =>
              tui_sanitize_ascii ((tui_frame_get_char ctx.back r (c + i)).getD 0)))
          g1 hle (by omega) hg1
          (by
            rcases run_length_stop (mismatched ctx r) ctx.back.cols c hc with h1 | h1
            · exact Or.inr (Or.inr (Or.inl (by omega)))
            · exact Or.inr (Or.inr (Or.inr h1)))
        refine ⟨g2, ?_, hg2⟩
        rw [he2, run_starts_run (mismatched ctx r) ctx.back.cols c hlt hmt hleft,
          List.flatMap_cons]
        simp only [run_block, List.append_assoc]
      · have heq : ctx.back.cells.getD (r * ctx.back.cols + c) 0 =
            ctx.front.cells.getD (r * ctx.back.cols + c) 0 := by
          by_contra hx; exact hne hx
        have hmf : mismatched ctx r c = false := by
          cases hx : mismatched ctx r c
          · rfl
          · exact absurd heq (hm.mp hx)
        rw [if_pos heq]
        obtain ⟨g1, he, hg1⟩ := ih (c + 1) out g hlt (by omega)
          (presented_upto_skip ctx _ g hg heq)
          (Or.inr (Or.inl (by simpa using hmf)))
        refine ⟨g1, ?_, hg1⟩
        rw [he, run_starts_skip (mismatched ctx r) ctx.back.cols c hlt hmf]
    · have hce : c = ctx.back.cols := by omega
      have hg1 : presented_upto ctx (r * ctx.back.cols + ctx.back.cols) g := by
        have h0 := hg
        rw [hce] at h0
        exact h0
      refine ⟨g, ?_, hg1⟩
      simp only [present_row, if_neg hlt]
      rw [run_starts_end (mismatched ctx r) ctx.back.cols c (by omega)]
      simp

/-- The blocks of the maximal runs of a row, written with the run starts. -/
theorem flatMap_maximal_runs (ctx : tui_ctx_t) (r : Nat) :
    (maximal_runs (mismatched ctx r) ctx.back.cols).flatMap (run_block ctx r) =
      ((List.range' 0 (ctx.back.cols - 0)).filter (run_start (mismatched ctx r))).flatMap
        (fun s => run_block ctx r (s, run_length (mismatched ctx r) ctx.back.cols s)) := by
  unfold maximal_runs
  rw [List.range_eq_range', Nat.sub_zero]
  generalize (List.range' 0 ctx.back.cols).filter (run_start (mismatched ctx r)) = l
  induction l with
  | nil => rfl
  | cons a t ih => rw [List.map_cons, List.flatMap_cons, List.flatMap_cons, ih]

/-- The whole of `tui_present`: it returns, writes the specified bytes after
those already in the sink, and leaves every cell of the front buffer processed. -/
theorem tui_present_spec (ctx : tui_ctx_t) (hw : ctx.wf) :
    ∃ g1, tui_present ctx =
        some { ctx with out := ctx.out ++ present_output ctx,
                        front := { ctx.front with cells := g1 } } ∧
      presented_upto ctx (ctx.back.rows * ctx.back.cols) g1 := by
  have key := foldlM_range_inv
    (fun (st : List Nat × List Nat) r =>
      present_row ctx.back.cells r ctx.back.cols (ctx.back.cols + 1) 0 st.1 st.2)
    (fun k (st : List Nat × List Nat) =>
      st.1 = ctx.out ++ (List.range k).flatMap
        (fun r => (maximal_runs (mismatched ctx r) ctx.back.cols).flatMap (run_block ctx r)) ∧
      presented_upto ctx (k * ctx.back.cols) st.2)
    ctx.back.rows (ctx.out, ctx.front.cells)
    ⟨by simp, rfl, fun j => by
      have a : ¬ (j < 0 * ctx.back.cols ∧
          ctx.back.cells.getD j 0 ≠ ctx.front.cells.getD j 0) := by omega
      rw [if_neg a]⟩
    (by
      intro k st hk hP
      obtain ⟨h1, h2⟩ := hP
      obtain ⟨g1, he, hg1⟩ := present_row_spec ctx hw k hk (ctx.back.cols + 1) 0 st.1 st.2
        (Nat.zero_le _) (by omega) h2 (Or.inl rfl)
      refine ⟨_, he, ?_, ?_⟩
      · show st.1 ++ _ = _
        rw [h1, List.range_succ, List.flatMap_append, List.append_assoc,
          ← flatMap_maximal_runs ctx k]
        simp
      · have e : (k + 1) * ctx.back.cols = k * ctx.back.cols + ctx.back.cols :=
          Nat.succ_mul k ctx.back.cols
        rw [e]; exact hg1)
  obtain ⟨st, hst, hP1, hP2⟩ := key
  refine ⟨st.2, ?_, hP2⟩
  unfold tui_present
  simp only []
  rw [hst]
  simp only [hP1, present_output]

theorem present_front_length (ctx : tui_ctx_t) :
    (present_front ctx).length = ctx.front.cells.length := by
  simp [present_front]

theorem present_front_getD (ctx : tui_ctx_t) (j : Nat) (hj : j < ctx.front.cells.length) :
    (present_front ctx).getD j 0 =
      if ctx.back.cells.getD j 0 ≠ ctx.front.cells.getD j 0 then
        tui_sanitize_ascii (ctx.back.cells.getD j 0)
      else ctx.front.cells.getD j 0 := by
  have h1 : j < (present_front ctx).length := by rw [present_front_length]; exact hj
  rw [List.getD_eq_getElem _ 0 h1]
  simp only [present_front, List.getElem_map, List.getElem_range]

/-- A front buffer processed up to the last cell is the closed form. -/
theorem presented_upto_all (ctx : tui_ctx_t) (hw : ctx.wf) (g : List Nat)
    (h : presented_upto ctx (ctx.back.rows * ctx.back.cols) g) : g = present_front ctx := by
  apply List.ext_getElem (by rw [h.1, present_front_length])
  intro n h1 h2
  have hn : n < ctx.front.cells.length := by rw [← h.1]; exact h1
  have hn1 : n < ctx.back.rows * ctx.back.cols := by rw [← front_length ctx hw]; exact hn
  have e1 := h.2 n
  have e2 := present_front_getD ctx n hn
  rw [List.getD_eq_getElem _ 0 h1] at e1
  rw [List.getD_eq_getElem _ 0 h2] at e2
  rw [e1, e2]
  by_cases hne : ctx.back.cells.getD n 0 ≠ ctx.front.cells.getD n 0
  · rw [if_pos ⟨hn1, hne⟩, if_pos hne]
  · rw [if_neg (fun x => hne x.2), if_neg hne]

/-- The result of `tui_present` on a context with well-formed frames of equal
dimensions, in closed form. -/
theorem tui_present_eq (ctx : tui_ctx_t) (hw : ctx.wf) :
    tui_present ctx =
      some { ctx with out := ctx.out ++ present_output ctx,
                      front := { ctx.front with cells := present_front ctx } } := by
  obtain ⟨g1, h1, h2⟩ := tui_present_spec ctx hw
  rw [h1, presented_upto_all ctx hw g1 h2]

/-- The cell of the closed form at an in-bounds coordinate. -/
theorem present_front_cell (ctx : tui_ctx_t) (hw : ctx.wf) (r c : Nat)
    (hr : r < ctx.back.rows) (hc : c < ctx.back.cols) :
    tui_frame_get_char { ctx.front with cells := present_front ctx } r c =
      some (if ctx.back.cells.getD (r * ctx.back.cols + c) 0 =
            ctx.front.cells.getD (r * ctx.back.cols + c) 0 then
          ctx.front.cells.getD (r * ctx.back.cols + c) 0
        else tui_sanitize_ascii (ctx.back.cells.getD (r * ctx.back.cols + c) 0)) := by
  obtain ⟨hb, hf, hrows, hcols⟩ := hw
  have hwf : tui_frame_t.wf { ctx.front with cells := present_front ctx } :=
    ⟨by rw [present_front_length]; exact hf.1, hf.2⟩
  have hi := index_lt_mul hr hc
  have hn : r * ctx.back.cols + c < ctx.front.cells.length := by
    rw [hf.1, hrows, hcols]; exact hi
  rw [get_char_in_bounds _ hwf r c (by show r < ctx.front.rows; omega)
    (by show c < ctx.front.cols; omega)]
  show some ((present_front ctx).getD (r * ctx.front.cols + c) 0) = _
  rw [hcols, present_front_getD ctx _ hn]
  by_cases he : ctx.back.cells.getD (r * ctx.back.cols + c) 0 =
      ctx.front.cells.getD (r * ctx.back.cols + c) 0
  · rw [if_neg (by simpa using he), if_pos he]
  · rw [if_pos he, if_neg he]

/-! ## The bytes of a cursor move -/

theorem fmt_digits_range : ∀ (fuel n : Nat) (acc : List Nat),
    (∀ b ∈ acc, 48 ≤ b ∧ b ≤ 57) → ∀ b ∈ fmt_digits fuel n acc, 48 ≤ b ∧ b ≤ 57 := by
  intro fuel
  induction fuel with
  | zero => intro n acc h b hb; exact h b hb
  | succ k ih =>
    intro n acc h b hb
    have hd : ∀ x ∈ (48 + n % 10) :: acc, 48 ≤ x ∧ x ≤ 57 := by
      intro x hx
      rcases List.mem_cons.mp hx with h1 | h1
      · have := Nat.mod_lt n (by decide : 10 > 0)
        omega
      · exact h x h1
    unfold fmt_digits at hb
    split at hb
    · exact hd b hb
    · exact ih _ _ hd b hb

theorem digitChar_toNat (d : Nat) (h : d < 10) : (Nat.digitChar d).toNat = 48 + d := by
  interval_cases d <;> rfl

/-- The digits `fmt_zu` produces are the decimal digits of the library
function `Nat.toDigits`. -/
theorem fmt_digits_eq_toDigits : ∀ (fuel n : Nat) (ds : List Char),
    fmt_digits fuel n (ds.map Char.toNat) = (Nat.toDigitsCore 10 fuel n ds).map Char.toNat := by
  intro fuel
  induction fuel with
  | zero => intro n ds; rfl
  | succ k ih =>
    intro n ds
    have hd := digitChar_toNat (n % 10) (Nat.mod_lt n (by decide))
    unfold fmt_digits Nat.toDigitsCore
    by_cases h : n / 10 = 0
    · simp only [h, if_true, List.map_cons, hd]
    · simp only [h, if_false]
      rw [← ih, List.map_cons, hd]

theorem fmt_zu_eq_toDigits (n : Nat) : fmt_zu n = (Nat.toDigits 10 n).map Char.toNat :=
  fmt_digits_eq_toDigits (n + 1) n []

theorem fmt_zu_range (n b : Nat) (hb : b ∈ fmt_zu n) : 48 ≤ b ∧ b ≤ 57 :=
  fmt_digits_range (n + 1) n [] (fun x hx => by simp at hx) b hb

theorem sanitize_range (ch : Nat) : 32 ≤ tui_sanitize_ascii ch ∧ tui_sanitize_ascii ch ≤ 126 := by
  unfold tui_sanitize_ascii
  split <;> omega

/-- A cursor move holds the byte `ESC` once. -/
theorem move_cursor_count_esc (r c : Nat) : (tui_ansi_move_cursor r c).count 27 = 1 := by
  have h1 : (fmt_zu (r + 1)).count 27 = 0 :=
    List.count_eq_zero_of_not_mem (fun h => by have := fmt_zu_range _ _ h; omega)
  have h2 : (fmt_zu (c + 1)).count 27 = 0 :=
    List.count_eq_zero_of_not_mem (fun h => by have := fmt_zu_range _ _ h; omega)
  unfold tui_ansi_move_cursor
  simp only [List.count_append, h1, h2]
  decide

theorem run_block_count_esc (ctx : tui_ctx_t) (r : Nat) (run : Nat × Nat) :
    (run_block ctx r run).count 27 = 1 := by
  unfold run_block
  rw [List.count_append, move_cursor_count_esc]
  have : ((List.range run.2).map (fun i =>
      tui_sanitize_ascii ((tui_frame_get_char ctx.back r (run.1 + i)).getD 0))).count 27 = 0 := by
    apply List.count_eq_zero_of_not_mem
    intro h
    rw [List.mem_map] at h
    obtain ⟨i, _, hi⟩ := h
    have := sanitize_range ((tui_frame_get_char ctx.back r (run.1 + i)).getD 0)
    omega
  rw [this]

/-- The specified output holds one `ESC` byte per maximal mismatched run. -/
theorem present_output_count_esc (ctx : tui_ctx_t) :
    (present_output ctx).count 27 = present_move_count ctx := by
  unfold present_output present_move_count
  rw [List.count_flatMap]
  congr 1
  apply List.map_congr_left
  intro r _
  show List.count 27 ((maximal_runs (mismatched ctx r) ctx.back.cols).flatMap (run_block ctx r)) = _
  rw [List.count_flatMap]
  generalize maximal_runs (mismatched ctx r) ctx.back.cols = l
  induction l with
  | nil => rfl
  | cons a t ih =>
    rw [List.map_cons, List.sum_cons, ih, List.length_cons]
    show (run_block ctx r a).count 27 + _ = _
    rw [run_block_count_esc]
    omega

theorem present_cell_count_eq (ctx : tui_ctx_t) :
    present_cell_count ctx = mismatch_count ctx := by
  unfold present_cell_count mismatch_count
  congr 1
  apply List.map_congr_left
  intro r _
  exact maximal_runs_total (mismatched ctx r) ctx.back.cols

/-! ## Clearing, single writes and the row-major index -/

theorem getD_replicate_lt (n v i : Nat) (h : i < n) : (List.replicate n v).getD i 0 = v := by
  simp [List.getD, List.getElem?_replicate, h]

theorem memset_all (buf : List Nat) (v n : Nat) (h : buf.length = n) :
    memset buf v n = some (List.replicate n v) := by
  have hle : n ≤ buf.length := by omega
  have hd : buf.drop n = [] := by
    apply List.drop_eq_nil_of_le; omega
  rw [memset, if_pos hle, hd, List.append_nil]

/-- The frame `tui_frame_clear` leaves. -/
theorem frame_clear_eq (f : tui_frame_t) (hf : f.wf) (ch : Nat) :
    tui_frame_clear f ch = some { f with cells := List.replicate (f.rows * f.cols) ch } := by
  unfold tui_frame_clear
  rw [size_wrap_of_le hf.2, memset_all f.cells ch _ hf.1]

/-- The row-major index determines the coordinate. -/
theorem index_inj {cols r1 c1 r2 c2 : Nat} (h1 : c1 < cols) (h2 : c2 < cols)
    (h : r1 * cols + c1 = r2 * cols + c2) : r1 = r2 ∧ c1 = c2 := by
  rcases Nat.lt_trichotomy r1 r2 with hlt | heq | hgt
  · have := index_lt_mul hlt h1
    omega
  · subst heq
    exact ⟨rfl, by omega⟩
  · have := index_lt_mul hgt h2
    omega

/-- The frame an in-bounds `tui_frame_set_char` leaves. -/
theorem set_char_eq (f : tui_frame_t) (hf : f.wf) (r c ch : Nat)
    (hr : r < f.rows) (hc : c < f.cols) :
    tui_frame_set_char f r c ch =
      some (0, { f with cells := f.cells.set (r * f.cols + c) (tui_sanitize_ascii ch) }) := by
  have hg : ¬ (r ≥ f.rows ∨ c ≥ f.cols) := by omega
  have hi : r * f.cols + c < f.cells.length := by rw [hf.1]; exact index_lt_mul hr hc
  simp [tui_frame_set_char, hg, cell_index_eq hf.2 hr hc, store, hi]

/-! ## Resize handling -/

/-- A `tui_frame_resize` that cannot succeed returns -1 and the frame as it was. -/
theorem frame_resize_fail (calloc_ok : Bool) (f : tui_frame_t) (rows cols : Nat)
    (h : rows = 0 ∨ cols = 0 ∨ rows * cols > SIZE_MAX ∨ calloc_ok = false) :
    tui_frame_resize calloc_ok f rows cols = some (-1, f) := by
  by_cases hg : rows = 0 ∨ cols = 0 ∨ cols > SIZE_MAX / rows
  · simp only [tui_frame_resize, if_pos hg]
  · have hr : 0 < rows := by omega
    have hb : ¬ rows * cols > SIZE_MAX := by
      rw [← guard_iff rows cols hr]; omega
    have hk : calloc_ok = false := by
      rcases h with h | h | h | h
      · omega
      · omega
      · exact absurd h hb
      · exact h
    simp [tui_frame_resize, hg, hk]

/-- A `tui_frame_resize` of a well-formed frame to valid dimensions, `calloc`
succeeding, returns 0 and a frame of the new dimensions. -/
theorem frame_resize_ok (f : tui_frame_t) (hf : f.wf) (rows cols : Nat)
    (hr : 0 < rows) (hc : 0 < cols) (hb : rows * cols ≤ SIZE_MAX) :
    ∃ nc, tui_frame_resize true f rows cols = some (0, ⟨rows, cols, nc⟩) ∧
      nc.length = rows * cols := by
  have hg : ¬ (rows = 0 ∨ cols = 0 ∨ cols > SIZE_MAX / rows) := by
    rw [guard_iff rows cols hr]; omega
  obtain ⟨nc, hnc, hlen, _⟩ := resize_copy_spec f hf rows cols
    (if rows < f.rows then rows else f.rows) (if cols < f.cols then cols else f.cols) hb
    (by split <;> omega) (by split <;> omega) (by split <;> omega) (by split <;> omega)
  refine ⟨nc, ?_, hlen⟩
  simp only [tui_frame_resize, if_neg hg, size_wrap_of_le hb]
  simp [hnc]

/-- The result of a successful `tui_ctx_handle_resize`: the flag is cleared, the
back frame is blank and the front frame is zero, both of the new dimensions. -/
theorem handle_resize_ok (ctx : tui_ctx_t) (hf : ctx.front.wf) (hb : ctx.back.wf)
    (rows cols : Nat) (hr : 0 < rows) (hc : 0 < cols) (hbd : rows * cols ≤ SIZE_MAX) :
    tui_ctx_handle_resize true (some (rows, cols)) true true ctx =
      some (1, false, ⟨ctx.out, ⟨rows, cols, List.replicate (rows * cols) 0⟩,
        ⟨rows, cols, List.replicate (rows * cols) 32⟩⟩) := by
  obtain ⟨ncf, hrf, hlf⟩ := frame_resize_ok ctx.front hf rows cols hr hc hbd
  obtain ⟨ncb, hrb, hlb⟩ := frame_resize_ok ctx.back hb rows cols hr hc hbd
  have hwb : (⟨rows, cols, ncb⟩ : tui_frame_t).wf := ⟨hlb, hbd⟩
  have hcl := frame_clear_eq ⟨rows, cols, ncb⟩ hwb 32
  have hms : memset ncf 0 (size_wrap (rows * cols)) = some (List.replicate (rows * cols) 0) := by
    rw [size_wrap_of_le hbd]
    exact memset_all ncf 0 _ hlf
  simp only [tui_ctx_handle_resize]
  simp only [hrf, hrb, hcl, hms]
  simp

/-- After any sequence of `tui_frame_set_char` calls a well-formed frame of
printable cells is again one, of the same dimensions. -/
theorem set_chars_printable (ws : List (Nat × Nat × Nat)) : ∀ (f : tui_frame_t),
    f.wf → f.printable →
    ∃ f1, set_chars f ws = some f1 ∧ f1.wf ∧ f1.printable ∧
      f1.rows = f.rows ∧ f1.cols = f.cols := by
  induction ws with
  | nil => intro f hf hp; exact ⟨f, rfl, hf, hp, rfl, rfl⟩
  | cons w t ih =>
    intro f hf hp
    by_cases hin : w.1 < f.rows ∧ w.2.1 < f.cols
    · have hwf : tui_frame_t.wf
          { f with cells := f.cells.set (w.1 * f.cols + w.2.1) (tui_sanitize_ascii w.2.2) } :=
        ⟨by simpa using hf.1, hf.2⟩
      have hpr : tui_frame_t.printable
          { f with cells := f.cells.set (w.1 * f.cols + w.2.1) (tui_sanitize_ascii w.2.2) } := by
        intro b hb
        rcases List.mem_or_eq_of_mem_set hb with h | h
        · exact hp b h
        · rw [h]; exact sanitize_range _
      obtain ⟨f1, h1, h2, h3, h4, h5⟩ := ih _ hwf hpr
      refine ⟨f1, ?_, h2, h3, h4, h5⟩
      simp only [set_chars, set_char_eq f hf w.1 w.2.1 w.2.2 hin.1 hin.2]
      exact h1
    · have hout : w.1 ≥ f.rows ∨ w.2.1 ≥ f.cols := by omega
      obtain ⟨f1, h1, h2, h3, h4, h5⟩ := ih f hf hp
      refine ⟨f1, ?_, h2, h3, h4, h5⟩
      simp only [set_chars, tui_frame_set_char, if_pos hout]
      exact h1

/-! ## Rows that are mismatched everywhere or nowhere -/

theorem getD_mem (l : List Nat) (i : Nat) (h : i < l.length) : l.getD i 0 ∈ l := by
  rw [List.getD_eq_getElem l 0 h]
  exact List.getElem_mem h

theorem sanitize_id (b : Nat) (h : 32 ≤ b ∧ b ≤ 126) : tui_sanitize_ascii b = b := by
  have : ¬ (b < 32 ∨ b > 126) := by omega
  unfold tui_sanitize_ascii
  rw [if_neg this]

/-- A row flagged in every column has one maximal run, the whole row. -/
theorem maximal_runs_all (m : Nat → Bool) (cols : Nat) (hc : 0 < cols)
    (hall : ∀ c, c < cols → m c = true) : maximal_runs m cols = [(0, cols)] := by
  have hlen : run_length m cols 0 = cols :=
    run_length_unique m cols 0 cols (by omega) (fun c _ h => hall c (by omega)) (Or.inl (by omega))
  have h := run_starts_run m cols 0 hc (hall 0 hc) (Or.inl rfl)
  rw [hlen, Nat.zero_add, run_starts_end m cols cols (Nat.le_refl _), Nat.sub_zero] at h
  unfold maximal_runs
  rw [List.range_eq_range', h, List.map_cons, List.map_nil, hlen]

/-- A row flagged in no column has no run. -/
theorem maximal_runs_none (m : Nat → Bool) (cols : Nat)
    (hnone : ∀ c, c < cols → m c = false) : maximal_runs m cols = [] := by
  unfold maximal_runs
  have : (List.range cols).filter (run_start m) = [] := by
    rw [List.filter_eq_nil_iff]
    intro x hx
    rw [List.mem_range] at hx
    simp [run_start, hnone x hx]
  rw [this, List.map_nil]

/-- When no cell is mismatched the presenter is specified to write nothing. -/
theorem present_output_none (ctx : tui_ctx_t)
    (h : ∀ r c, r < ctx.back.rows → c < ctx.back.cols → mismatched ctx r c = false) :
    present_output ctx = [] := by
  unfold present_output
  rw [List.flatMap_congr (g := fun _ => [])]
  · simp
  · intro r hr
    rw [List.mem_range] at hr
    rw [maximal_runs_none _ _ (fun c hc => h r c hr hc)]
    rfl

/-- When every cell is mismatched the presenter is specified to write a full
repaint. -/
theorem present_output_all (ctx : tui_ctx_t) (hc : 0 < ctx.back.cols)
    (h : ∀ r c, r < ctx.back.rows → c < ctx.back.cols → mismatched ctx r c = true) :
    present_output ctx = full_repaint ctx.back := by
  unfold present_output full_repaint
  apply List.flatMap_congr
  intro r hr
  rw [List.mem_range] at hr
  rw [maximal_runs_all _ _ hc (fun c hc1 => h r c hr hc1)]
  simp [run_block]

theorem counts_all (ctx : tui_ctx_t) (hc : 0 < ctx.back.cols)
    (h : ∀ r c, r < ctx.back.rows → c < ctx.back.cols → mismatched ctx r c = true) :
    mismatch_count ctx = ctx.back.rows * ctx.back.cols ∧
    present_move_count ctx = ctx.back.rows := by
  constructor
  · unfold mismatch_count
    have e : (List.range ctx.back.rows).map
        (fun r => (List.range ctx.back.cols).countP (mismatched ctx r)) =
        (List.range ctx.back.rows).map (fun _ => ctx.back.cols) := by
      apply List.map_congr_left
      intro r hr
      rw [List.mem_range] at hr
      have : (List.range ctx.back.cols).countP (mismatched ctx r) =
          (List.range ctx.back.cols).length := by
        rw [List.countP_eq_length]
        intro c hc1
        rw [List.mem_range] at hc1
        exact h r c hr hc1
      rw [this, List.length_range]
    rw [e, List.map_const', List.sum_replicate, List.length_range]
    rfl
  · unfold present_move_count
    have e : (List.range ctx.back.rows).map
        (fun r => (maximal_runs (mismatched ctx r) ctx.back.cols).length) =
        (List.range ctx.back.rows).map (fun _ => 1) := by
      apply List.map_congr_left
      intro r hr
      rw [List.mem_range] at hr
      rw [maximal_runs_all _ _ hc (fun c hc1 => h r c hr hc1)]
      rfl
    rw [e, List.map_const', List.sum_replicate, List.length_range]
    simp

/-- With a printable back frame the closed form of the front buffer is the back
buffer. -/
theorem present_front_eq_back (ctx : tui_ctx_t) (hw : ctx.wf) (hp : ctx.back.printable) :
    present_front ctx = ctx.back.cells := by
  have hlen : ctx.front.cells.length = ctx.back.cells.length := by
    rw [front_length ctx hw, hw.1.1]
  apply List.ext_getElem (by rw [present_front_length, hlen])
  intro n h1 h2
  have hn : n < ctx.front.cells.length := by rw [hlen]; exact h2
  have e := present_front_getD ctx n hn
  rw [List.getD_eq_getElem _ 0 h1] at e
  have hb : ctx.back.cells.getD n 0 = ctx.back.cells[n] := List.getD_eq_getElem _ 0 h2
  have hs := sanitize_id _ (hp _ (getD_mem ctx.back.cells n h2))
  rw [e, hs]
  by_cases hne : ctx.back.cells.getD n 0 ≠ ctx.front.cells.getD n 0
  · rw [if_pos hne, hb]
  · rw [if_neg hne]
    have : ctx.back.cells.getD n 0 = ctx.front.cells.getD n 0 := by
      by_contra hx; exact hne hx
    rw [← this, hb]

/-- No cell is mismatched when the two buffers are equal. -/
theorem mismatched_of_eq (ctx : tui_ctx_t) (hw : ctx.wf)
    (he : ctx.front.cells = ctx.back.cells) (r c : Nat)
    (hr : r < ctx.back.rows) (hc : c < ctx.back.cols) : mismatched ctx r c = false := by
  cases hx : mismatched ctx r c
  · rfl
  · have := (mismatched_iff ctx hw r c hr hc).mp hx
    rw [he] at this
    exact absurd rfl this

/-- Every byte of a cursor move is `ESC` or printable; the move opens with `ESC`
and `[`. -/
theorem move_cursor_bytes (r c b : Nat) (hb : b ∈ tui_ansi_move_cursor r c) :
    b = 27 ∨ (32 ≤ b ∧ b ≤ 126) := by
  unfold tui_ansi_move_cursor at hb
  simp only [List.mem_append, List.mem_cons, List.mem_singleton, List.not_mem_nil,
    or_false] at hb
  rcases hb with (((h | h) | h) | h) | h
  · rcases h with h | h
    · exact Or.inl h
    · exact Or.inr (by omega)
  · have := fmt_zu_range _ _ h
    exact Or.inr (by omega)
  · exact Or.inr (by omega)
  · have := fmt_zu_range _ _ h
    exact Or.inr (by omega)
  · exact Or.inr (by omega)

/-- Every byte the presenter is specified to write is `ESC` or printable. -/
theorem present_output_bytes (ctx : tui_ctx_t) (b : Nat) (hb : b ∈ present_output ctx) :
    b = 27 ∨ (32 ≤ b ∧ b ≤ 126) := by
  unfold present_output at hb
  rw [List.mem_flatMap] at hb
  obtain ⟨r, _, hb⟩ := hb
  rw [List.mem_flatMap] at hb
  obtain ⟨run, _, hb⟩ := hb
  unfold run_block at hb
  rw [List.mem_append] at hb
  rcases hb with h | h
  · exact move_cursor_bytes _ _ _ h
  · rw [List.mem_map] at h
    obtain ⟨i, _, hi⟩ := h
    rw [← hi]
    exact Or.inr (sanitize_range _)

/-! ## The wire form of the output -/

theorem fmt_zu_eq_decimal (n : Nat) : fmt_zu n = decimal n :=
  fmt_zu_eq_toDigits n

/-- The bytes `tui_ansi_move_cursor` prints are the wire form of the move. -/
theorem move_cursor_eq_wire (r c : Nat) : tui_ansi_move_cursor r c = cursor_move_wire r c := by
  unfold tui_ansi_move_cursor cursor_move_wire
  rw [fmt_zu_eq_decimal, fmt_zu_eq_decimal]

theorem sanitize_eq_sanitized (b : Nat) : tui_sanitize_ascii b = sanitized b := by
  unfold tui_sanitize_ascii sanitized
  by_cases h : 32 ≤ b ∧ b ≤ 126
  · rw [if_pos h, if_neg (by omega)]
  · rw [if_neg h, if_pos (by omega)]

theorem present_output_eq_wire (ctx : tui_ctx_t) : present_output ctx = present_wire ctx := by
  unfold present_output present_wire
  apply List.flatMap_congr
  intro r _
  apply List.flatMap_congr
  intro run _
  unfold run_block
  rw [move_cursor_eq_wire]
  congr 1
  apply List.map_congr_left
  intro i _
  exact sanitize_eq_sanitized _

theorem fmt_digits_append : ∀ (fuel n : Nat) (acc : List Nat),
    fmt_digits fuel n acc = fmt_digits fuel n [] ++ acc := by
  intro fuel
  induction fuel with
  | zero => intro n acc; rfl
  | succ k ih =>
    intro n acc
    unfold fmt_digits
    by_cases h : n / 10 = 0
    · rw [if_pos h, if_pos h]; rfl
    · rw [if_neg h, if_neg h, ih (n / 10) ((48 + n % 10) :: acc), ih (n / 10) [48 + n % 10],
        List.append_assoc]
      rfl

theorem decimal_value_snoc (l : List Nat) (d : Nat) :
    decimal_value (l ++ [d]) = 10 * decimal_value l + (d - 48) := by
  simp [decimal_value, List.foldl_append]

/-- The digits `fmt_zu` produces denote the number in base ten. -/
theorem decimal_value_fmt_digits : ∀ (fuel n : Nat), n < fuel →
    decimal_value (fmt_digits fuel n []) = n := by
  intro fuel
  induction fuel with
  | zero => intro n h; omega
  | succ k ih =>
    intro n hn
    unfold fmt_digits
    by_cases h : n / 10 = 0
    · rw [if_pos h]
      show 10 * 0 + (48 + n % 10 - 48) = n
      omega
    · rw [if_neg h, fmt_digits_append, decimal_value_snoc, ih (n / 10) (by omega)]
      omega

theorem decimal_value_decimal (n : Nat) : decimal_value (decimal n) = n := by
  rw [← fmt_zu_eq_decimal]
  exact decimal_value_fmt_digits (n + 1) n (by omega)

theorem decimal_digits (n d : Nat) (h : d ∈ decimal n) : 48 ≤ d ∧ d ≤ 57 := by
  rw [← fmt_zu_eq_decimal] at h
  exact fmt_zu_range n d h

/-- The length of the blocks of a list of runs of one row. -/
theorem run_blocks_length (r : Nat) (h : Nat → Nat → Nat) (l : List (Nat × Nat)) :
    (l.flatMap (fun run => cursor_move_wire r run.1 ++
        (List.range run.2).map (h run.1))).length =
      (l.map (fun run => (cursor_move_wire r run.1).length)).sum + (l.map Prod.snd).sum := by
  induction l with
  | nil => rfl
  | cons a t ih =>
    rw [List.flatMap_cons, List.length_append, ih, List.length_append, List.length_map,
      List.length_range, List.map_cons, List.map_cons, List.sum_cons, List.sum_cons]
    omega

/-- The specified output has the bytes of its cursor moves and one byte per
mismatched cell. -/
theorem present_wire_length (ctx : tui_ctx_t) :
    (present_wire ctx).length = present_move_bytes ctx + mismatch_count ctx := by
  unfold present_wire present_move_bytes mismatch_count
  rw [List.length_flatMap, ← List.sum_map_add]
  congr 1
  apply List.map_congr_left
  intro r _
  show (List.flatMap _ _).length = _
  rw [run_blocks_length r
    (fun s i => sanitized ((tui_frame_get_char ctx.back r (s + i)).getD 0)),
    maximal_runs_total]

/-- A sum over the rows of a term plus a constant. -/
theorem sum_range_add_const (f : Nat → Nat) (k n : Nat) :
    ((List.range n).map (fun r => f r + k)).sum = ((List.range n).map f).sum + n * k := by
  induction n with
  | zero => simp
  | succ m ih =>
    rw [List.range_succ, List.map_append, List.map_append, List.sum_append, List.sum_append, ih,
      Nat.succ_mul]
    simp only [List.map_cons, List.map_nil, List.sum_cons, List.sum_nil]
    omega

theorem full_repaint_wire_length (back : tui_frame_t) :
    (full_repaint_wire back).length =
      ((List.range back.rows).map (fun r => (cursor_move_wire r 0).length)).sum +
        back.rows * back.cols := by
  unfold full_repaint_wire
  rw [List.length_flatMap, ← sum_range_add_const]
  congr 1
  apply List.map_congr_left
  intro r _
  simp

/-- On a well-formed frame of printable cells the full repaint is its wire
form: sanitizing changes no byte. -/
theorem full_repaint_eq_wire (back : tui_frame_t) (hw : back.wf) (hp : back.printable) :
    full_repaint back = full_repaint_wire back := by
  unfold full_repaint full_repaint_wire
  apply List.flatMap_congr
  intro r hr
  rw [List.mem_range] at hr
  rw [move_cursor_eq_wire]
  congr 1
  apply List.map_congr_left
  intro c hc
  rw [List.mem_range] at hc
  rw [get_char_in_bounds back hw r c hr hc]
  have hi : r * back.cols + c < back.cells.length := by rw [hw.1]; exact index_lt_mul hr hc
  exact sanitize_id _ (hp _ (getD_mem back.cells _ hi))

/-! ## The claims -/

/-- Claim C2 at a failing input.  A context of 1 row and 2 columns as
`tui_ctx_new` builds it, after a `tui_ctx_handle_resize` that returns 1 (the
front frame is then zero) and the call `tui_frame_clear(ctx->back, 0)`:
`tui_present` compares the raw back byte `0` with the front byte `0`, skips both
cells, writes nothing and leaves the front cells `0`, while the sanitized back
byte is `?` (63). -/
theorem present_leaves_raw_front :
    tui_ctx_new [] (some (1, 2)) true true true true true =
      some (some ⟨[], ⟨1, 2, [32, 32]⟩, ⟨1, 2, [32, 32]⟩⟩) ∧
    tui_ctx_handle_resize true (some (1, 2)) true true
        ⟨[], ⟨1, 2, [32, 32]⟩, ⟨1, 2, [32, 32]⟩⟩ =
      some (1, false, ⟨[], ⟨1, 2, [0, 0]⟩, ⟨1, 2, [32, 32]⟩⟩) ∧
    tui_frame_clear ⟨1, 2, [32, 32]⟩ 0 = some ⟨1, 2, [0, 0]⟩ ∧
    tui_ctx_t.wf ⟨[], ⟨1, 2, [0, 0]⟩, ⟨1, 2, [0, 0]⟩⟩ ∧
    tui_present ⟨[], ⟨1, 2, [0, 0]⟩, ⟨1, 2, [0, 0]⟩⟩ =
      some ⟨[], ⟨1, 2, [0, 0]⟩, ⟨1, 2, [0, 0]⟩⟩ ∧
    tui_frame_get_char ⟨1, 2, [0, 0]⟩ 0 0 = some 0 ∧
    tui_frame_get_char ⟨1, 2, [0, 0]⟩ 0 1 = some 0 ∧
    tui_sanitize_ascii 0 = 63 ∧
    tui_frame_get_char ⟨1, 2, [0, 0]⟩ 0 0 ≠
      (tui_frame_get_char ⟨1, 2, [0, 0]⟩ 0 0).map tui_sanitize_ascii := by
  decide

/-- The same on frames of one cell as `tui_frame_new` leaves them, every cell
zero: `tui_present` finds no mismatch and changes nothing, so the front cell
stays `0` while the sanitized back cell is `?` (63). -/
theorem present_front_not_sanitized :
    ctx_fresh_frames.wf ∧
    tui_present ctx_fresh_frames = some ctx_fresh_frames ∧
    tui_frame_get_char ctx_fresh_frames.front 0 0 = some 0 ∧
    (tui_frame_get_char ctx_fresh_frames.back 0 0).map tui_sanitize_ascii = some 63 ∧
    tui_frame_get_char ctx_fresh_frames.front 0 0 ≠
      (tui_frame_get_char ctx_fresh_frames.back 0 0).map tui_sanitize_ascii := by
  decide

/-- Claim C3 at a failing input.  The context of one cell that `tui_ctx_new`
builds, after `tui_frame_clear(ctx->back, 0)`: the first `tui_present` writes
`ESC [ 1 ; 1 H ?` and stores `?` into the front cell; the second call, with no
mutation in between, compares the raw back byte `0` with `?` and writes the same
seven bytes again. -/
theorem present_twice_reemits :
    (∃ c0, tui_ctx_new [] (some (1, 1)) true true true true true = some (some c0) ∧
      c0.front = ctx_back_nul.front ∧
      tui_frame_clear c0.back 0 = some ctx_back_nul.back) ∧
    ∃ c1 c2, tui_present ctx_back_nul = some c1 ∧
      c1.out = [27, 91, 49, 59, 49, 72, 63] ∧ c1.front.cells = [63] ∧
      tui_present c1 = some c2 ∧
      c2.out = c1.out ++ [27, 91, 49, 59, 49, 72, 63] ∧ c2.front = c1.front :=
  ⟨⟨⟨[], ⟨1, 1, [32]⟩, ⟨1, 1, [32]⟩⟩, by decide, by decide, by decide⟩,
   ⟨[27, 91, 49, 59, 49, 72, 63], ⟨1, 1, [63]⟩, ⟨1, 1, [0]⟩⟩,
   ⟨[27, 91, 49, 59, 49, 72, 63, 27, 91, 49, 59, 49, 72, 63], ⟨1, 1, [63]⟩, ⟨1, 1, [0]⟩⟩,
   by decide, by decide, by decide, by decide, by decide, by decide⟩

/-- Claim C4.  End-to-end scenario: `tui_ctx_new` on a terminal of 5 rows and 10
columns leaves both frames blank; after `tui_frame_set_char(back, 2, c, 120)` for
`c = 0..4`, `tui_present` appends to the sink exactly
`ESC [ 3 ; 1 H x x x x x`, and a second `tui_present` appends nothing and changes
nothing. -/
theorem end_to_end_row_of_x (out : List Nat) :
    ∃ ctx0 b1 b2 b3 b4 b5 ctx1,
      tui_ctx_new out (some (5, 10)) true true true true true = some (some ctx0) ∧
      ctx0 = ⟨out, blank_5x10, blank_5x10⟩ ∧
      tui_frame_set_char ctx0.back 2 0 120 = some (0, b1) ∧
      tui_frame_set_char b1 2 1 120 = some (0, b2) ∧
      tui_frame_set_char b2 2 2 120 = some (0, b3) ∧
      tui_frame_set_char b3 2 3 120 = some (0, b4) ∧
      tui_frame_set_char b4 2 4 120 = some (0, b5) ∧
      tui_present { ctx0 with back := b5 } = some ctx1 ∧
      ctx1.out = out ++ [27, 91, 51, 59, 49, 72, 120, 120, 120, 120, 120] ∧
      tui_present ctx1 = some ctx1 := by
  have hw1 : tui_ctx_t.wf ⟨out, blank_5x10, row2_x_5x10⟩ := by
    show tui_ctx_t.wf ⟨[], blank_5x10, row2_x_5x10⟩
    decide
  have ho1 : present_output ⟨out, blank_5x10, row2_x_5x10⟩ =
      [27, 91, 51, 59, 49, 72, 120, 120, 120, 120, 120] := by
    show present_output ⟨[], blank_5x10, row2_x_5x10⟩ = _
    decide
  have hf1 : present_front ⟨out, blank_5x10, row2_x_5x10⟩ = row2_x_5x10.cells := by
    show present_front ⟨[], blank_5x10, row2_x_5x10⟩ = _
    decide
  have hw2 : tui_ctx_t.wf
      ⟨out ++ [27, 91, 51, 59, 49, 72, 120, 120, 120, 120, 120], row2_x_5x10, row2_x_5x10⟩ := by
    show tui_ctx_t.wf ⟨[], row2_x_5x10, row2_x_5x10⟩
    decide
  have ho2 : present_output
      ⟨out ++ [27, 91, 51, 59, 49, 72, 120, 120, 120, 120, 120], row2_x_5x10, row2_x_5x10⟩ =
      [] := by
    show present_output ⟨[], row2_x_5x10, row2_x_5x10⟩ = _
    decide
  have hf2 : present_front
      ⟨out ++ [27, 91, 51, 59, 49, 72, 120, 120, 120, 120, 120], row2_x_5x10, row2_x_5x10⟩ =
      row2_x_5x10.cells := by
    show present_front ⟨[], row2_x_5x10, row2_x_5x10⟩ = _
    decide
  refine ⟨⟨out, blank_5x10, blank_5x10⟩,
    ⟨5, 10, List.replicate 20 32 ++ [120] ++ List.replicate 29 32⟩,
    ⟨5, 10, List.replicate 20 32 ++ [120, 120] ++ List.replicate 28 32⟩,
    ⟨5, 10, List.replicate 20 32 ++ [120, 120, 120] ++ List.replicate 27 32⟩,
    ⟨5, 10, List.replicate 20 32 ++ [120, 120, 120, 120] ++ List.replicate 26 32⟩,
    row2_x_5x10,
    ⟨out ++ [27, 91, 51, 59, 49, 72, 120, 120, 120, 120, 120], row2_x_5x10, row2_x_5x10⟩,
    ?_, rfl, ?_, by decide, by decide, by decide, by decide, ?_, rfl, ?_⟩
  · show tui_ctx_new out (some (5, 10)) true true true true true = _
    rfl
  · show tui_frame_set_char blank_5x10 2 0 120 = _
    decide
  · rw [tui_present_eq _ hw1, ho1, hf1]
    rfl
  · rw [tui_present_eq _ hw2, ho2, hf2]
    simp

/-- Claim C5.  A successful `tui_frame_resize` of a well-formed frame to
`rows x cols` (both positive, product within `size_t`, `calloc` succeeding)
returns 0 and leaves a frame of the new dimensions in which a cell of the
overlapping top-left rectangle holds its former value and every other in-bounds
cell is zero. -/
theorem resize_preserves_overlap (f : tui_frame_t) (rows cols : Nat) (hf : f.wf)
    (hr : 0 < rows) (hc : 0 < cols) (hb : rows * cols ≤ SIZE_MAX) :
    ∃ f1, tui_frame_resize true f rows cols = some (0, f1) ∧
      f1.rows = rows ∧ f1.cols = cols ∧ f1.cells.length = rows * cols ∧
      ∀ r c, r < rows → c < cols →
        tui_frame_get_char f1 r c =
          if r < min f.rows rows ∧ c < min f.cols cols then tui_frame_get_char f r c
          else some 0 := by
  have hg : ¬ (rows = 0 ∨ cols = 0 ∨ cols > SIZE_MAX / rows) := by
    rw [guard_iff rows cols hr]; omega
  obtain ⟨nc, hnc, hlen, hget⟩ := resize_copy_spec f hf rows cols
    (if rows < f.rows then rows else f.rows) (if cols < f.cols then cols else f.cols) hb
    (by split <;> omega) (by split <;> omega) (by split <;> omega) (by split <;> omega)
  refine ⟨⟨rows, cols, nc⟩, ?_, rfl, rfl, hlen, ?_⟩
  · simp only [tui_frame_resize, if_neg hg, size_wrap_of_le hb]
    simp [hnc]
  · intro r c hr1 hc1
    have hwf : (⟨rows, cols, nc⟩ : tui_frame_t).wf := ⟨hlen, hb⟩
    rw [get_char_in_bounds _ hwf r c hr1 hc1]
    show some (nc.getD (r * cols + c) 0) = _
    rw [hget r c hr1 hc1]
    have e1 : (if rows < f.rows then rows else f.rows) = min f.rows rows := by
      split <;> omega
    have e2 : (if cols < f.cols then cols else f.cols) = min f.cols cols := by
      split <;> omega
    rw [e1, e2]
    by_cases hin : r < min f.rows rows ∧ c < min f.cols cols
    · rw [if_pos hin, if_pos hin, get_char_in_bounds f hf r c (by omega) (by omega)]
    · rw [if_neg hin, if_neg hin]

/-- Witness for C5: a frame of 2 rows and 3 columns resized to 3 rows and 2
columns. -/
theorem resize_preserves_overlap_witness :
    (⟨2, 3, [65, 66, 67, 68, 69, 70]⟩ : tui_frame_t).wf ∧ 0 < 3 ∧ 0 < 2 ∧ 3 * 2 ≤ SIZE_MAX ∧
    ∃ f1, tui_frame_resize true ⟨2, 3, [65, 66, 67, 68, 69, 70]⟩ 3 2 = some (0, f1) ∧
      f1.rows = 3 ∧ f1.cols = 2 ∧ f1.cells.length = 3 * 2 ∧
      ∀ r c, r < 3 → c < 2 →
        tui_frame_get_char f1 r c =
          if r < min (2 : Nat) 3 ∧ c < min (3 : Nat) 2 then
            tui_frame_get_char ⟨2, 3, [65, 66, 67, 68, 69, 70]⟩ r c
          else some 0 :=
  ⟨by decide, by decide, by decide, by decide,
   resize_preserves_overlap ⟨2, 3, [65, 66, 67, 68, 69, 70]⟩ 3 2 (by decide) (by decide)
     (by decide) (by decide)⟩

/-- Claim C6.  The function `tui_frame_resize` returns -1 with the frame unchanged
when `rows` is 0, `cols` is 0, the product exceeds `SIZE_MAX` or `calloc` fails;
and whenever it returns -1 the frame is the one passed in. -/
theorem resize_failure_keeps_frame (calloc_ok : Bool) (f : tui_frame_t) (rows cols : Nat) :
    ((rows = 0 ∨ cols = 0 ∨ rows * cols > SIZE_MAX ∨ calloc_ok = false) →
      tui_frame_resize calloc_ok f rows cols = some (-1, f)) ∧
    (∀ f1, tui_frame_resize calloc_ok f rows cols = some (-1, f1) → f1 = f) := by
  constructor
  · intro h
    by_cases hg : rows = 0 ∨ cols = 0 ∨ cols > SIZE_MAX / rows
    · simp only [tui_frame_resize, if_pos hg]
    · have hr : 0 < rows := by omega
      have hb : ¬ rows * cols > SIZE_MAX := by
        rw [← guard_iff rows cols hr]; omega
      have hk : calloc_ok = false := by
        rcases h with h | h | h | h
        · omega
        · omega
        · exact absurd h hb
        · exact h
      simp [tui_frame_resize, hg, hk]
  · intro f1 h
    by_cases hg : rows = 0 ∨ cols = 0 ∨ cols > SIZE_MAX / rows
    · simp only [tui_frame_resize, if_pos hg] at h
      simp at h
      exact h.symm
    · cases calloc_ok
      · simp [tui_frame_resize, hg] at h
        exact h.symm
      · simp only [tui_frame_resize, if_neg hg] at h
        revert h
        generalize resize_copy _ _ _ _ _ = x
        intro h
        cases x <;> simp at h

/-- Claim C7.  On a well-formed frame and an in-bounds coordinate,
`tui_frame_set_char` returns 0 and a following `tui_frame_get_char` returns the
sanitized byte: the byte itself when it is in 32..126, and `?` (63) otherwise
(0..31 and 127..255, the latter being the negative values of a signed `char`). -/
theorem set_char_then_get_char (f : tui_frame_t) (r c ch : Nat) (hf : f.wf)
    (hr : r < f.rows) (hc : c < f.cols) :
    ∃ f1, tui_frame_set_char f r c ch = some (0, f1) ∧
      tui_frame_get_char f1 r c = some (tui_sanitize_ascii ch) ∧
      (32 ≤ ch ∧ ch ≤ 126 → tui_sanitize_ascii ch = ch) ∧
      (ch < 32 ∨ 126 < ch → tui_sanitize_ascii ch = 63) := by
  have hg : ¬ (r ≥ f.rows ∨ c ≥ f.cols) := by omega
  have hi : r * f.cols + c < f.cells.length := by rw [hf.1]; exact index_lt_mul hr hc
  refine ⟨{ f with cells := f.cells.set (r * f.cols + c) (tui_sanitize_ascii ch) }, ?_, ?_, ?_, ?_⟩
  · simp [tui_frame_set_char, hg, cell_index_eq hf.2 hr hc, store, hi]
  · have hf1 : tui_frame_t.wf { f with cells := f.cells.set (r * f.cols + c) (tui_sanitize_ascii ch) } := by
      constructor
      · simpa using hf.1
      · exact hf.2
    rw [get_char_in_bounds _ hf1 r c hr hc]
    show some ((f.cells.set (r * f.cols + c) (tui_sanitize_ascii ch)).getD (r * f.cols + c) 0) = _
    rw [getD_set _ _ _ _ hi, if_pos rfl]
  · intro h
    have : ¬ (ch < 32 ∨ ch > 126) := by omega
    simp [tui_sanitize_ascii, this]
  · intro h
    have : ch < 32 ∨ ch > 126 := h
    simp [tui_sanitize_ascii, this]

/-- Witness for C7: the byte 200 written into a frame of 2 rows and 3 columns. -/
theorem set_char_then_get_char_witness :
    (⟨2, 3, [65, 66, 67, 68, 69, 70]⟩ : tui_frame_t).wf ∧ 1 < 2 ∧ 2 < 3 ∧
    ∃ f1, tui_frame_set_char ⟨2, 3, [65, 66, 67, 68, 69, 70]⟩ 1 2 200 = some (0, f1) ∧
      tui_frame_get_char f1 1 2 = some (tui_sanitize_ascii 200) ∧
      (32 ≤ 200 ∧ 200 ≤ 126 → tui_sanitize_ascii 200 = 200) ∧
      (200 < 32 ∨ 126 < 200 → tui_sanitize_ascii 200 = 63) :=
  ⟨by decide, by decide, by decide,
   set_char_then_get_char ⟨2, 3, [65, 66, 67, 68, 69, 70]⟩ 1 2 200 (by decide) (by decide) (by decide)⟩

/-- Claim C8.  At a coordinate with `r >= rows` or `c >= cols`,
`tui_frame_set_char` returns -1 and leaves the frame as it was, and
`tui_frame_get_char`, which has no effect on the frame, returns the null
character. -/
theorem out_of_bounds_set_get (f : tui_frame_t) (r c ch : Nat)
    (h : r ≥ f.rows ∨ c ≥ f.cols) :
    tui_frame_set_char f r c ch = some (-1, f) ∧ tui_frame_get_char f r c = some 0 := by
  simp [tui_frame_set_char, tui_frame_get_char, h]

/-- Witness for C8: row 2 of a frame of 2 rows. -/
theorem out_of_bounds_set_get_witness :
    ((2 : Nat) ≥ (⟨2, 3, [65, 66, 67, 68, 69, 70]⟩ : tui_frame_t).rows ∨
      (0 : Nat) ≥ (⟨2, 3, [65, 66, 67, 68, 69, 70]⟩ : tui_frame_t).cols) ∧
    tui_frame_set_char ⟨2, 3, [65, 66, 67, 68, 69, 70]⟩ 2 0 120 =
      some (-1, ⟨2, 3, [65, 66, 67, 68, 69, 70]⟩) ∧
    tui_frame_get_char ⟨2, 3, [65, 66, 67, 68, 69, 70]⟩ 2 0 = some 0 :=
  ⟨by decide, out_of_bounds_set_get ⟨2, 3, [65, 66, 67, 68, 69, 70]⟩ 2 0 120 (by decide)⟩

/-- Claim C9.  For positive `rows` and `cols` whose product is within `size_t`, and
the allocator succeeding, `tui_frame_new` returns a frame of exactly those
dimensions whose buffer has `rows * cols` cells, and `tui_frame_get_char` returns
the null character at every in-bounds coordinate. -/
theorem frame_new_zero_filled (rows cols : Nat) (hr : 0 < rows) (hc : 0 < cols)
    (h : rows * cols ≤ SIZE_MAX) :
    ∃ f, (tui_frame_new true true rows cols).1 = some f ∧ f.rows = rows ∧ f.cols = cols ∧
      f.cells.length = rows * cols ∧
      ∀ r c, r < rows → c < cols → tui_frame_get_char f r c = some 0 := by
  refine ⟨⟨rows, cols, List.replicate (rows * cols) 0⟩, ?_, rfl, rfl, by simp, ?_⟩
  · rw [frame_new_eq rows cols hr hc h]
  · intro r c hr1 hc1
    have hwf : (⟨rows, cols, List.replicate (rows * cols) 0⟩ : tui_frame_t).wf := ⟨by simp, h⟩
    rw [get_char_in_bounds _ hwf r c hr1 hc1]
    have := index_lt_mul hr1 hc1
    simp [List.getD, List.getElem?_replicate, this]

/-- Witness for C9: a frame of 24 rows and 80 columns. -/
theorem frame_new_zero_filled_witness :
    0 < 24 ∧ 0 < 80 ∧ 24 * 80 ≤ SIZE_MAX ∧
    ∃ f, (tui_frame_new true true 24 80).1 = some f ∧ f.rows = 24 ∧ f.cols = 80 ∧
      f.cells.length = 24 * 80 ∧
      ∀ r c, r < 24 → c < 80 → tui_frame_get_char f r c = some 0 :=
  ⟨by decide, by decide, by decide,
   frame_new_zero_filled 24 80 (by decide) (by decide) (by decide)⟩

/-- Claim C10.  Whatever the allocator would answer, `tui_frame_new` returns `NULL`
without any allocator call when `rows` is 0, `cols` is 0 or the true product
exceeds `SIZE_MAX`; the guard `cols > SIZE_MAX / rows` rejects exactly the pairs
of positive values whose product does not fit; and every `calloc` the function
makes is for the true product `rows * cols`, which is within `size_t`. -/
theorem frame_new_rejects_overflow (malloc_ok calloc_ok : Bool) (rows cols : Nat) :
    ((rows = 0 ∨ cols = 0 ∨ rows * cols > SIZE_MAX) →
      tui_frame_new malloc_ok calloc_ok rows cols = (none, [])) ∧
    ((rows = 0 ∨ cols = 0 ∨ cols > SIZE_MAX / rows) ↔
      (rows = 0 ∨ cols = 0 ∨ rows * cols > SIZE_MAX)) ∧
    (∀ n, alloc_call.calloc_cells n ∈ (tui_frame_new malloc_ok calloc_ok rows cols).2 →
      n = rows * cols ∧ rows * cols ≤ SIZE_MAX) := by
  have hiff : (rows = 0 ∨ cols = 0 ∨ cols > SIZE_MAX / rows) ↔
      (rows = 0 ∨ cols = 0 ∨ rows * cols > SIZE_MAX) := by
    rcases Nat.eq_zero_or_pos rows with h0 | hpos
    · simp [h0]
    · rw [guard_iff rows cols hpos]
  refine ⟨?_, hiff, ?_⟩
  · intro h
    have := hiff.mpr h
    simp only [tui_frame_new, if_pos this]
  · intro n hn
    by_cases hg : rows = 0 ∨ cols = 0 ∨ cols > SIZE_MAX / rows
    · simp [tui_frame_new, hg] at hn
    · have hb : rows * cols ≤ SIZE_MAX := by
        have := mt hiff.mpr hg
        omega
      simp only [tui_frame_new, if_neg hg] at hn
      rw [size_wrap_of_le hb] at hn
      refine ⟨?_, hb⟩
      cases malloc_ok <;> cases calloc_ok <;> simp at hn <;> exact hn

/-- Claim C11.  On a context with well-formed frames, `tui_ctx_handle_resize`:
with the flag not set returns 0 and leaves the flag and the context as they
were; with the flag set and a size to which both frames can be resized returns 1,
clears the flag, and leaves both frames of that size, every back cell blank (32)
and every front cell zero; with the flag set and the size query failing, or a
frame resize failing, returns -1. -/
theorem handle_resize_cases (ctx : tui_ctx_t) (size : Option (Nat × Nat))
    (front_calloc_ok back_calloc_ok : Bool) (hf : ctx.front.wf) (hb : ctx.back.wf) :
    tui_ctx_handle_resize false size front_calloc_ok back_calloc_ok ctx = some (0, false, ctx) ∧
    (∀ rows cols, size = some (rows, cols) → 0 < rows → 0 < cols → rows * cols ≤ SIZE_MAX →
      front_calloc_ok = true → back_calloc_ok = true →
      ∃ ctx1, tui_ctx_handle_resize true size front_calloc_ok back_calloc_ok ctx =
          some (1, false, ctx1) ∧
        ctx1.front.rows = rows ∧ ctx1.front.cols = cols ∧
        ctx1.back.rows = rows ∧ ctx1.back.cols = cols ∧
        ∀ r c, r < rows → c < cols →
          tui_frame_get_char ctx1.back r c = some 32 ∧
          tui_frame_get_char ctx1.front r c = some 0) ∧
    ((size = none ∨ ∃ rows cols, size = some (rows, cols) ∧
        (rows = 0 ∨ cols = 0 ∨ rows * cols > SIZE_MAX ∨
          front_calloc_ok = false ∨ back_calloc_ok = false)) →
      ∃ ctx1, tui_ctx_handle_resize true size front_calloc_ok back_calloc_ok ctx =
        some (-1, false, ctx1)) := by
  refine ⟨by simp [tui_ctx_handle_resize], ?_, ?_⟩
  · intro rows cols hs hr hc hbd hfo hbo
    subst hs hfo hbo
    refine ⟨_, handle_resize_ok ctx hf hb rows cols hr hc hbd, rfl, rfl, rfl, rfl, ?_⟩
    intro r c hr1 hc1
    have hi := index_lt_mul hr1 hc1
    have hwb : (⟨rows, cols, List.replicate (rows * cols) 32⟩ : tui_frame_t).wf :=
      ⟨by simp, hbd⟩
    have hwf : (⟨rows, cols, List.replicate (rows * cols) 0⟩ : tui_frame_t).wf :=
      ⟨by simp, hbd⟩
    constructor
    · show tui_frame_get_char ⟨rows, cols, List.replicate (rows * cols) 32⟩ r c = _
      rw [get_char_in_bounds _ hwb r c hr1 hc1]
      show some ((List.replicate (rows * cols) 32).getD (r * cols + c) 0) = _
      rw [getD_replicate_lt _ _ _ hi]
    · show tui_frame_get_char ⟨rows, cols, List.replicate (rows * cols) 0⟩ r c = _
      rw [get_char_in_bounds _ hwf r c hr1 hc1]
      show some ((List.replicate (rows * cols) 0).getD (r * cols + c) 0) = _
      rw [getD_replicate_lt _ _ _ hi]
  · intro h
    rcases h with h | ⟨rows, cols, hs, h⟩
    · subst h
      exact ⟨ctx, by simp [tui_ctx_handle_resize]⟩
    · subst hs
      by_cases hfail : rows = 0 ∨ cols = 0 ∨ rows * cols > SIZE_MAX ∨ front_calloc_ok = false
      · refine ⟨ctx, ?_⟩
        simp [tui_ctx_handle_resize, frame_resize_fail front_calloc_ok ctx.front rows cols hfail]
      · have hr : 0 < rows := by omega
        have hc : 0 < cols := by omega
        have hbd : rows * cols ≤ SIZE_MAX := by omega
        have hfo : front_calloc_ok = true := by
          cases front_calloc_ok
          · exact absurd (Or.inr (Or.inr (Or.inr rfl))) hfail
          · rfl
        have hbo : back_calloc_ok = false := by
          rcases h with h | h | h | h | h
          · omega
          · omega
          · omega
          · rw [hfo] at h; exact absurd h (by decide)
          · exact h
        subst hfo
        obtain ⟨ncf, hrf, _⟩ := frame_resize_ok ctx.front hf rows cols hr hc hbd
        refine ⟨{ ctx with front := ⟨rows, cols, ncf⟩ }, ?_⟩
        simp [tui_ctx_handle_resize, hrf,
          frame_resize_fail back_calloc_ok ctx.back rows cols (Or.inr (Or.inr (Or.inr hbo)))]

/-- Witness for C11: the blank context of 2 rows and 2 columns resized to 3 rows
and 1 column. -/
theorem handle_resize_cases_witness :
    ctx_blank_2x2.front.wf ∧ ctx_blank_2x2.back.wf ∧
    tui_ctx_handle_resize true (some (3, 1)) true true ctx_blank_2x2 =
      some (1, false, ⟨[], ⟨3, 1, [0, 0, 0]⟩, ⟨3, 1, [32, 32, 32]⟩⟩) ∧
    (tui_ctx_handle_resize false (some (3, 1)) true true ctx_blank_2x2 =
        some (0, false, ctx_blank_2x2) ∧
      (∀ rows cols, some ((3 : Nat), (1 : Nat)) = some (rows, cols) → 0 < rows → 0 < cols →
        rows * cols ≤ SIZE_MAX → true = true → true = true →
        ∃ ctx1, tui_ctx_handle_resize true (some (3, 1)) true true ctx_blank_2x2 =
            some (1, false, ctx1) ∧
          ctx1.front.rows = rows ∧ ctx1.front.cols = cols ∧
          ctx1.back.rows = rows ∧ ctx1.back.cols = cols ∧
          ∀ r c, r < rows → c < cols →
            tui_frame_get_char ctx1.back r c = some 32 ∧
            tui_frame_get_char ctx1.front r c = some 0) ∧
      ((some ((3 : Nat), (1 : Nat)) = none ∨ ∃ rows cols, some ((3 : Nat), (1 : Nat)) =
          some (rows, cols) ∧
          (rows = 0 ∨ cols = 0 ∨ rows * cols > SIZE_MAX ∨ true = false ∨ true = false)) →
        ∃ ctx1, tui_ctx_handle_resize true (some (3, 1)) true true ctx_blank_2x2 =
          some (-1, false, ctx1))) :=
  ⟨by decide, by decide, by decide,
   handle_resize_cases ctx_blank_2x2 (some (3, 1)) true true (by decide) (by decide)⟩

/-- Claim C13 at a failing input.  On the blank context of 2 rows and 2 columns,
with the flag set, the size query answering 1 row and 1 column, the `calloc` of
the front resize succeeding and the one of the back resize failing,
`tui_ctx_handle_resize` returns -1 and leaves the front frame 1 x 1 and the back
frame 2 x 2.  A following `tui_present`, which takes its bounds from the back
frame, reads the front buffer outside its bounds. -/
theorem handle_resize_partial_failure :
    ctx_blank_2x2.wf ∧
    tui_ctx_handle_resize true (some (1, 1)) true false ctx_blank_2x2 =
      some (-1, false, ⟨[], ⟨1, 1, [32]⟩, ⟨2, 2, [32, 32, 32, 32]⟩⟩) ∧
    (⟨1, 1, [32]⟩ : tui_frame_t).rows ≠ (⟨2, 2, [32, 32, 32, 32]⟩ : tui_frame_t).rows ∧
    (⟨1, 1, [32]⟩ : tui_frame_t).cols ≠ (⟨2, 2, [32, 32, 32, 32]⟩ : tui_frame_t).cols ∧
    tui_present ⟨[], ⟨1, 1, [32]⟩, ⟨2, 2, [32, 32, 32, 32]⟩⟩ = none := by
  decide

/-- Claim C14.  On a context whose frames are well formed and of equal
dimensions, every byte `tui_present` appends to the sink is `ESC` (27) or a
printable byte 32..126, and the `ESC` bytes are as many as the cursor moves, each
of which opens with `ESC`.  Every cell byte is the result of
`tui_sanitize_ascii`, hence in 32..126, and so is every byte the call stores into
the front frame: a mismatched cell ends up holding the back byte when that is in
32..126 and `?` (63) otherwise, and no other cell is stored to. -/
theorem present_writes_printable (ctx : tui_ctx_t) (hw : ctx.wf) :
    ∃ ctx1 written, tui_present ctx = some ctx1 ∧ ctx1.out = ctx.out ++ written ∧
      (∀ b, b ∈ written → b = 27 ∨ (32 ≤ b ∧ b ≤ 126)) ∧
      written.count 27 = present_move_count ctx ∧
      (∀ r c, ∃ rest, tui_ansi_move_cursor r c = 27 :: 91 :: rest ∧
        ∀ b, b ∈ rest → 32 ≤ b ∧ b ≤ 126) ∧
      (∀ ch, 32 ≤ tui_sanitize_ascii ch ∧ tui_sanitize_ascii ch ≤ 126) ∧
      (∀ r c, r < ctx.back.rows → c < ctx.back.cols →
        ∃ b g, tui_frame_get_char ctx.back r c = some b ∧
          tui_frame_get_char ctx.front r c = some g ∧
          (b = g → tui_frame_get_char ctx1.front r c = some g) ∧
          (b ≠ g → ∃ v, tui_frame_get_char ctx1.front r c = some v ∧
            32 ≤ v ∧ v ≤ 126 ∧ (32 ≤ b ∧ b ≤ 126 → v = b) ∧
            (b < 32 ∨ 126 < b → v = 63))) := by
  refine ⟨_, present_output ctx, tui_present_eq ctx hw, rfl,
    fun b hb => present_output_bytes ctx b hb, present_output_count_esc ctx, ?_,
    sanitize_range, ?_⟩
  · intro r c
    refine ⟨fmt_zu (r + 1) ++ [59] ++ fmt_zu (c + 1) ++ [72], ?_, ?_⟩
    · simp [tui_ansi_move_cursor]
    · intro b hb
      simp only [List.mem_append, List.mem_singleton] at hb
      rcases hb with ((h | h) | h) | h
      · have := fmt_zu_range _ _ h; omega
      · omega
      · have := fmt_zu_range _ _ h; omega
      · omega
  · intro r c hr hc
    have h3 := present_front_cell ctx hw r c hr hc
    obtain ⟨hb, hf, hrows, hcols⟩ := hw
    refine ⟨ctx.back.cells.getD (r * ctx.back.cols + c) 0,
      ctx.front.cells.getD (r * ctx.back.cols + c) 0,
      get_char_in_bounds ctx.back hb r c hr hc, ?_, ?_, ?_⟩
    · rw [get_char_in_bounds ctx.front hf r c (by omega) (by omega), hcols]
    · intro he
      rw [h3, if_pos he]
    · intro hne
      refine ⟨tui_sanitize_ascii (ctx.back.cells.getD (r * ctx.back.cols + c) 0), ?_,
        (sanitize_range _).1, (sanitize_range _).2, fun h => sanitize_id _ h, ?_⟩
      · rw [h3, if_neg hne]
      · intro h
        have : ctx.back.cells.getD (r * ctx.back.cols + c) 0 < 32 ∨
            ctx.back.cells.getD (r * ctx.back.cols + c) 0 > 126 := h
        unfold tui_sanitize_ascii
        rw [if_pos this]

/-- Witness for C14, at the context `ctx_back_nul` whose back cell is the byte 0:
the call writes `ESC [ 1 ; 1 H ?`. -/
theorem present_writes_printable_witness :
    ctx_back_nul.wf ∧
    present_output ctx_back_nul = [27, 91, 49, 59, 49, 72, 63] ∧
    ∃ ctx1 written, tui_present ctx_back_nul = some ctx1 ∧
      ctx1.out = ctx_back_nul.out ++ written ∧
      (∀ b, b ∈ written → b = 27 ∨ (32 ≤ b ∧ b ≤ 126)) ∧
      written.count 27 = present_move_count ctx_back_nul ∧
      (∀ r c, ∃ rest, tui_ansi_move_cursor r c = 27 :: 91 :: rest ∧
        ∀ b, b ∈ rest → 32 ≤ b ∧ b ≤ 126) ∧
      (∀ ch, 32 ≤ tui_sanitize_ascii ch ∧ tui_sanitize_ascii ch ≤ 126) ∧
      (∀ r c, r < ctx_back_nul.back.rows → c < ctx_back_nul.back.cols →
        ∃ b g, tui_frame_get_char ctx_back_nul.back r c = some b ∧
          tui_frame_get_char ctx_back_nul.front r c = some g ∧
          (b = g → tui_frame_get_char ctx1.front r c = some g) ∧
          (b ≠ g → ∃ v, tui_frame_get_char ctx1.front r c = some v ∧
            32 ≤ v ∧ v ≤ 126 ∧ (32 ≤ b ∧ b ≤ 126 → v = b) ∧
            (b < 32 ∨ 126 < b → v = 63))) :=
  ⟨by decide, by decide, present_writes_printable ctx_back_nul (by decide)⟩

/-- Claim C15.  Raw-mode state machine of the POSIX variant, standard input being
a terminal and the calls `tcgetattr` and `tcsetattr` succeeding, from any state:
both of two successive `tui_enable_raw_mode` calls return 0 and the second
changes nothing, so the saved settings are those the first call left (the
terminal settings it captured, or the ones saved before when the flag was already
set).  A following `tui_disable_raw_mode` installs exactly those saved settings
and clears the flag, and one more `tui_disable_raw_mode` changes nothing. -/
theorem raw_mode_enable_twice_disable (k : termios_consts) (s : raw_mode_t) :
    (tui_enable_raw_mode k true true true s).1 = 0 ∧
    (tui_enable_raw_mode k true true true (tui_enable_raw_mode k true true true s).2).1 = 0 ∧
    (tui_enable_raw_mode k true true true (tui_enable_raw_mode k true true true s).2).2 =
      (tui_enable_raw_mode k true true true s).2 ∧
    (tui_enable_raw_mode k true true true s).2.tui_termios_saved = true ∧
    (tui_enable_raw_mode k true true true s).2.tui_orig_termios =
      (if s.tui_termios_saved then s.tui_orig_termios else s.terminal) ∧
    (s.tui_termios_saved = false →
      (tui_enable_raw_mode k true true true s).2.terminal = raw_settings k s.terminal) ∧
    (tui_disable_raw_mode true true
      (tui_enable_raw_mode k true true true
        (tui_enable_raw_mode k true true true s).2).2).terminal =
      (tui_enable_raw_mode k true true true s).2.tui_orig_termios ∧
    (tui_disable_raw_mode true true
      (tui_enable_raw_mode k true true true
        (tui_enable_raw_mode k true true true s).2).2).tui_termios_saved = false ∧
    tui_disable_raw_mode true true
      (tui_disable_raw_mode true true
        (tui_enable_raw_mode k true true true
          (tui_enable_raw_mode k true true true s).2).2) =
      tui_disable_raw_mode true true
        (tui_enable_raw_mode k true true true
          (tui_enable_raw_mode k true true true s).2).2 := by
  cases hs : s.tui_termios_saved <;>
    simp [tui_enable_raw_mode, tui_disable_raw_mode, hs]

/-- Claim C16.  On a well-formed frame, `tui_frame_clear` with any byte `ch`, also
one outside 32..126, keeps the dimensions, and `tui_frame_get_char` then returns
`ch` itself, not sanitized, at every in-bounds coordinate. -/
theorem clear_fills_verbatim (f : tui_frame_t) (ch : Nat) (hf : f.wf) :
    ∃ f1, tui_frame_clear f ch = some f1 ∧ f1.rows = f.rows ∧ f1.cols = f.cols ∧
      f1.cells.length = f.rows * f.cols ∧
      ∀ r c, r < f.rows → c < f.cols → tui_frame_get_char f1 r c = some ch := by
  refine ⟨_, frame_clear_eq f hf ch, rfl, rfl, by simp, ?_⟩
  intro r c hr hc
  have hwf : tui_frame_t.wf { f with cells := List.replicate (f.rows * f.cols) ch } :=
    ⟨by simp, hf.2⟩
  rw [get_char_in_bounds _ hwf r c hr hc]
  show some ((List.replicate (f.rows * f.cols) ch).getD (r * f.cols + c) 0) = _
  rw [getD_replicate_lt _ _ _ (index_lt_mul hr hc)]

/-- Witness for C16: a frame of 2 rows and 3 columns cleared with the byte 7,
which is not printable. -/
theorem clear_fills_verbatim_witness :
    (⟨2, 3, [65, 66, 67, 68, 69, 70]⟩ : tui_frame_t).wf ∧
    tui_frame_clear ⟨2, 3, [65, 66, 67, 68, 69, 70]⟩ 7 = some ⟨2, 3, [7, 7, 7, 7, 7, 7]⟩ ∧
    tui_sanitize_ascii 7 = 63 ∧
    ∃ f1, tui_frame_clear ⟨2, 3, [65, 66, 67, 68, 69, 70]⟩ 7 = some f1 ∧
      f1.rows = 2 ∧ f1.cols = 3 ∧ f1.cells.length = 2 * 3 ∧
      ∀ r c, r < 2 → c < 3 → tui_frame_get_char f1 r c = some 7 :=
  ⟨by decide, by decide, by decide,
   clear_fills_verbatim ⟨2, 3, [65, 66, 67, 68, 69, 70]⟩ 7 (by decide)⟩

/-- Claim C17 at a failing input.  For `timeout_ms = -1` the POSIX variant hands
`select` the address of a `timeval` with `tv_sec = 0` and `tv_usec = -1000`, not
the null pointer that asks for an unbounded wait; no value of `timeout_ms` makes
it hand over the null pointer.  With a `select` that rejects a negative field,
`tui_poll_key` returns -1 at once although a byte is there to be read.  The
Windows variant maps a negative `timeout_ms` to `INFINITE`. -/
theorem poll_key_negative_timeout :
    poll_key_select_timeout (-1) = some ⟨0, -1000⟩ ∧
    poll_key_select_timeout (-1500) = some ⟨-1, -500000⟩ ∧
    (∀ t : Int, poll_key_select_timeout t ≠ none) ∧
    tui_poll_key select_rejecting_negative (1, 65) (-1) = -1 ∧
    tui_poll_key select_rejecting_negative (1, 65) 200 = 65 ∧
    poll_key_wait_timeout_win32 (-1) = INFINITE := by
  refine ⟨by decide, by decide, ?_, by decide, by decide, by decide⟩
  intro t
  simp [poll_key_select_timeout]

/-- Claim C18.  On a context whose frames are well formed and of equal
dimensions and whose back cells are all printable (32..126), whatever the front
holds: `tui_present` leaves the back frame unchanged and the front frame equal to
the back frame, cell for cell, and a `tui_present` that follows at once returns
the very same context, so it writes no byte and changes neither frame. -/
theorem present_idempotent_printable (ctx : tui_ctx_t) (hw : ctx.wf)
    (hp : ctx.back.printable) :
    ∃ ctx1, tui_present ctx = some ctx1 ∧ ctx1.back = ctx.back ∧ ctx1.front = ctx.back ∧
      (∀ r c, tui_frame_get_char ctx1.front r c = tui_frame_get_char ctx.back r c) ∧
      tui_present ctx1 = some ctx1 := by
  have hfb : ({ ctx.front with cells := present_front ctx } : tui_frame_t) = ctx.back := by
    rw [present_front_eq_back ctx hw hp]
    obtain ⟨_, _, hrows, hcols⟩ := hw
    cases hbk : ctx.back with
    | mk rows cols cells =>
      rw [hbk] at hrows hcols
      simp only at hrows hcols
      show (⟨ctx.front.rows, ctx.front.cols, cells⟩ : tui_frame_t) = _
      rw [hrows, hcols]
  have h1 := tui_present_eq ctx hw
  rw [hfb] at h1
  have hw1 : tui_ctx_t.wf ⟨ctx.out ++ present_output ctx, ctx.back, ctx.back⟩ :=
    ⟨hw.1, hw.1, rfl, rfl⟩
  have hout : present_output ⟨ctx.out ++ present_output ctx, ctx.back, ctx.back⟩ = [] :=
    present_output_none _ (fun r c hr hc => mismatched_of_eq _ hw1 rfl r c hr hc)
  have hfr : present_front ⟨ctx.out ++ present_output ctx, ctx.back, ctx.back⟩ =
      ctx.back.cells := present_front_eq_back _ hw1 hp
  refine ⟨⟨ctx.out ++ present_output ctx, ctx.back, ctx.back⟩, h1, rfl, rfl,
    fun r c => rfl, ?_⟩
  rw [tui_present_eq _ hw1, hout, hfr]
  simp

/-- Witness for C18, at the context with two runs, whose back cells are
printable. -/
theorem present_idempotent_printable_witness :
    ctx_two_runs.wf ∧ ctx_two_runs.back.printable ∧
    ∃ ctx1, tui_present ctx_two_runs = some ctx1 ∧ ctx1.back = ctx_two_runs.back ∧
      ctx1.front = ctx_two_runs.back ∧
      (∀ r c, tui_frame_get_char ctx1.front r c = tui_frame_get_char ctx_two_runs.back r c) ∧
      tui_present ctx1 = some ctx1 :=
  ⟨by decide, by decide, present_idempotent_printable ctx_two_runs (by decide) (by decide)⟩

/-- Claim C19.  On a well-formed frame, an in-bounds `tui_frame_set_char` returns
0, keeps `rows` and `cols`, and changes no cell other than `(r, c)`:
`tui_frame_get_char` returns its previous value at every other in-bounds
coordinate.  The row-major index is injective on in-bounds coordinates. -/
theorem set_char_changes_one_cell (f : tui_frame_t) (r c ch : Nat) (hf : f.wf)
    (hr : r < f.rows) (hc : c < f.cols) :
    ∃ f1, tui_frame_set_char f r c ch = some (0, f1) ∧
      f1.rows = f.rows ∧ f1.cols = f.cols ∧
      (∀ r1 c1, r1 < f.rows → c1 < f.cols → (r1 ≠ r ∨ c1 ≠ c) →
        tui_frame_get_char f1 r1 c1 = tui_frame_get_char f r1 c1) ∧
      (∀ r1 c1 r2 c2, r1 < f.rows → c1 < f.cols → r2 < f.rows → c2 < f.cols →
        cell_index r1 f.cols c1 = cell_index r2 f.cols c2 → r1 = r2 ∧ c1 = c2) := by
  refine ⟨_, set_char_eq f hf r c ch hr hc, rfl, rfl, ?_, ?_⟩
  · intro r1 c1 hr1 hc1 hne
    have hi : r * f.cols + c < f.cells.length := by rw [hf.1]; exact index_lt_mul hr hc
    have hwf : tui_frame_t.wf
        { f with cells := f.cells.set (r * f.cols + c) (tui_sanitize_ascii ch) } :=
      ⟨by simpa using hf.1, hf.2⟩
    rw [get_char_in_bounds _ hwf r1 c1 hr1 hc1, get_char_in_bounds f hf r1 c1 hr1 hc1]
    show some ((f.cells.set (r * f.cols + c) (tui_sanitize_ascii ch)).getD
      (r1 * f.cols + c1) 0) = _
    have hidx : ¬ (r1 * f.cols + c1 = r * f.cols + c) := by
      intro h
      have := index_inj hc1 hc h
      omega
    rw [getD_set _ _ _ _ hi, if_neg hidx]
  · intro r1 c1 r2 c2 hr1 hc1 hr2 hc2 h
    rw [cell_index_eq hf.2 hr1 hc1, cell_index_eq hf.2 hr2 hc2] at h
    exact index_inj hc1 hc2 h

/-- Witness for C19: a write at `(1, 2)` of a frame of 2 rows and 3 columns. -/
theorem set_char_changes_one_cell_witness :
    (⟨2, 3, [65, 66, 67, 68, 69, 70]⟩ : tui_frame_t).wf ∧
    tui_frame_set_char ⟨2, 3, [65, 66, 67, 68, 69, 70]⟩ 1 2 120 =
      some (0, ⟨2, 3, [65, 66, 67, 68, 69, 120]⟩) ∧
    ∃ f1, tui_frame_set_char ⟨2, 3, [65, 66, 67, 68, 69, 70]⟩ 1 2 120 = some (0, f1) ∧
      f1.rows = 2 ∧ f1.cols = 3 ∧
      (∀ r1 c1, r1 < 2 → c1 < 3 → (r1 ≠ 1 ∨ c1 ≠ 2) →
        tui_frame_get_char f1 r1 c1 =
          tui_frame_get_char ⟨2, 3, [65, 66, 67, 68, 69, 70]⟩ r1 c1) ∧
      (∀ r1 c1 r2 c2, r1 < 2 → c1 < 3 → r2 < 2 → c2 < 3 →
        cell_index r1 3 c1 = cell_index r2 3 c2 → r1 = r2 ∧ c1 = c2) :=
  ⟨by decide, by decide,
   set_char_changes_one_cell ⟨2, 3, [65, 66, 67, 68, 69, 70]⟩ 1 2 120 (by decide) (by decide)
     (by decide)⟩

/-- Claim C20.  On a context whose frames are well formed and of equal
dimensions, `tui_present` returns: in the embedding an access outside a buffer
and an exhausted loop both yield `none`, so no access is out of bounds and the
scan terminates.  Every index `r * cols + c` and `r * cols + start + i` formed
for an in-bounds cell is computed without wrap-around and is below `rows * cols`,
the length of both buffers.  In every state the scan reaches at a mismatched
cell, the run found there has a length of at least 1 and ends at or before
`cols`, so the column counter strictly increases; the row loop returns for every
fuel above `cols`.  The bounds come from the back frame alone: with a front frame
of fewer columns the call reads outside the front buffer. -/
theorem present_memory_safe (ctx : tui_ctx_t) (hw : ctx.wf) :
    (∃ ctx1, tui_present ctx = some ctx1) ∧
    (∀ r c, r < ctx.back.rows → c < ctx.back.cols →
      cell_index r ctx.back.cols c = r * ctx.back.cols + c ∧
      cell_index r ctx.back.cols c < ctx.back.rows * ctx.back.cols ∧
      cell_index r ctx.back.cols c < ctx.back.cells.length ∧
      cell_index r ctx.back.cols c < ctx.front.cells.length) ∧
    (∀ r start len i, r < ctx.back.rows → start + len ≤ ctx.back.cols → i < len →
      size_wrap (r * ctx.back.cols + start + i) = r * ctx.back.cols + start + i ∧
      size_wrap (r * ctx.back.cols + start + i) < ctx.back.rows * ctx.back.cols ∧
      size_wrap (r * ctx.back.cols + start + i) < ctx.back.cells.length ∧
      size_wrap (r * ctx.back.cols + start + i) < ctx.front.cells.length) ∧
    (∀ r c g, r < ctx.back.rows → c < ctx.back.cols →
      presented_upto ctx (r * ctx.back.cols + c) g → mismatched ctx r c = true →
      ∃ c1, present_run_end ctx.back.cells g r ctx.back.cols (ctx.back.cols + 1) c = some c1 ∧
        c < c1 ∧ c1 ≤ ctx.back.cols ∧ 1 ≤ c1 - c) ∧
    (∀ r fuel out g, r < ctx.back.rows → ctx.back.cols < fuel →
      presented_upto ctx (r * ctx.back.cols) g →
      ∃ res, present_row ctx.back.cells r ctx.back.cols fuel 0 out g = some res) ∧
    tui_present ctx_unequal_dims = none := by
  refine ⟨⟨_, tui_present_eq ctx hw⟩, ?_, ?_, ?_, ?_, by decide⟩
  · intro r c hr hc
    have hi := index_lt_mul hr hc
    rw [cell_index_eq hw.1.2 hr hc, hw.1.1, front_length ctx hw]
    exact ⟨rfl, hi, hi, hi⟩
  · intro r start len i hr hle hi
    have hc : start + i < ctx.back.cols := by omega
    have h1 := index_lt_mul hr hc
    have h2 : r * ctx.back.cols + start + i < ctx.back.rows * ctx.back.cols := by omega
    have hwr : size_wrap (r * ctx.back.cols + start + i) = r * ctx.back.cols + start + i :=
      size_wrap_of_le (by have := hw.1.2; omega)
    rw [hwr, hw.1.1, front_length ctx hw]
    exact ⟨rfl, h2, h2, h2⟩
  · intro r c g hr hc hg hm
    have hpos := run_length_pos (mismatched ctx r) ctx.back.cols c hc hm
    have hle := run_length_le (mismatched ctx r) ctx.back.cols c (Nat.le_of_lt hc)
    refine ⟨c + run_length (mismatched ctx r) ctx.back.cols c,
      present_run_end_spec ctx hw r hr g hg.1 (ctx.back.cols + 1) c (Nat.le_of_lt hc)
        (by omega) (fun j hj => presented_upto_get ctx _ g hg j hj), by omega, hle, by omega⟩
  · intro r fuel out g hr hfuel hg
    obtain ⟨g1, h1, _⟩ := present_row_spec ctx hw r hr fuel 0 out g (Nat.zero_le _)
      (by omega) hg (Or.inl rfl)
    exact ⟨_, h1⟩

/-- Witness for C20, at the context with two runs. -/
theorem present_memory_safe_witness :
    ctx_two_runs.wf ∧
    present_run_end ctx_two_runs.back.cells ctx_two_runs.front.cells 0 6 7 0 = some 2 ∧
    ((∃ ctx1, tui_present ctx_two_runs = some ctx1) ∧
    (∀ r c, r < ctx_two_runs.back.rows → c < ctx_two_runs.back.cols →
      cell_index r ctx_two_runs.back.cols c = r * ctx_two_runs.back.cols + c ∧
      cell_index r ctx_two_runs.back.cols c <
        ctx_two_runs.back.rows * ctx_two_runs.back.cols ∧
      cell_index r ctx_two_runs.back.cols c < ctx_two_runs.back.cells.length ∧
      cell_index r ctx_two_runs.back.cols c < ctx_two_runs.front.cells.length) ∧
    (∀ r start len i, r < ctx_two_runs.back.rows → start + len ≤ ctx_two_runs.back.cols →
      i < len →
      size_wrap (r * ctx_two_runs.back.cols + start + i) =
        r * ctx_two_runs.back.cols + start + i ∧
      size_wrap (r * ctx_two_runs.back.cols + start + i) <
        ctx_two_runs.back.rows * ctx_two_runs.back.cols ∧
      size_wrap (r * ctx_two_runs.back.cols + start + i) < ctx_two_runs.back.cells.length ∧
      size_wrap (r * ctx_two_runs.back.cols + start + i) < ctx_two_runs.front.cells.length) ∧
    (∀ r c g, r < ctx_two_runs.back.rows → c < ctx_two_runs.back.cols →
      presented_upto ctx_two_runs (r * ctx_two_runs.back.cols + c) g →
      mismatched ctx_two_runs r c = true →
      ∃ c1, present_run_end ctx_two_runs.back.cells g r ctx_two_runs.back.cols
          (ctx_two_runs.back.cols + 1) c = some c1 ∧
        c < c1 ∧ c1 ≤ ctx_two_runs.back.cols ∧ 1 ≤ c1 - c) ∧
    (∀ r fuel out g, r < ctx_two_runs.back.rows → ctx_two_runs.back.cols < fuel →
      presented_upto ctx_two_runs (r * ctx_two_runs.back.cols) g →
      ∃ res, present_row ctx_two_runs.back.cells r ctx_two_runs.back.cols fuel 0 out g =
        some res) ∧
    tui_present ctx_unequal_dims = none) :=
  ⟨by decide, by decide, present_memory_safe ctx_two_runs (by decide)⟩

/-- Example for C15, from a cooked terminal with nothing saved, with the Linux
constants: two enables leave the terminal raw, the disable puts back the cooked
settings. -/
theorem raw_mode_enable_twice_disable_example :
    (tui_enable_raw_mode linux_termios_consts true true true cooked_state).2.terminal =
      ⟨0, 4, 2608, (List.replicate 5 3 ++ [1, 0]) ++ List.replicate 25 3⟩ ∧
    (tui_enable_raw_mode linux_termios_consts true true true cooked_state).2.atexit_hooks = 1 ∧
    (tui_enable_raw_mode linux_termios_consts true true true
      (tui_enable_raw_mode linux_termios_consts true true true cooked_state).2).2.atexit_hooks =
      1 ∧
    (tui_disable_raw_mode true true
      (tui_enable_raw_mode linux_termios_consts true true true
        (tui_enable_raw_mode linux_termios_consts true true true cooked_state).2).2).terminal =
      cooked_state.terminal ∧
    (tui_disable_raw_mode true true
      (tui_enable_raw_mode linux_termios_consts true true true
        (tui_enable_raw_mode linux_termios_consts true true true cooked_state).2).2).terminal =
      (tui_enable_raw_mode linux_termios_consts true true true
        cooked_state).2.tui_orig_termios :=
  ⟨by decide, by decide, by decide, by decide,
   (raw_mode_enable_twice_disable linux_termios_consts cooked_state).2.2.2.2.2.2.1⟩

end Tui
